import Mathlib

/-!
# Shallow embedding of the convex multi-commodity flow engine

This file embeds, in Lean 4, the data model and the operations of the
Python sources `modelos.py`, `funciones.py`, `fat_tree_topology.py` and
`ring_topology.py`, and proves (or refutes) the specification claims
about them.

Conventions of the embedding:
* Python `float` values are modelled as `Rat`.  All arithmetic the
  program performs (`+`, `-`, `*`, `/`, `max`, comparisons) is exact on
  the rationals, so the algebraic structure of every computation is
  preserved; no claim below depends on rounding behaviour.
* A Python `float` division raises `ZeroDivisionError` when the divisor
  is exactly `0.0`.  The one place in the program where the divisor can
  be zero on inputs satisfying the documented data-model invariants
  (`capacity > 0`) is the gradient step `0.001 / H_kp`; that operation is
  therefore embedded fallibly (`Except PyError`).  The divisions inside
  `f_prima` / `f_double_prima` have a nonzero divisor whenever
  `capacity > 0` (the saturated branch is taken before the denominator
  can vanish), so they are embedded with total `Rat` division.
* Python `dict`s are modelled as insertion-ordered association lists
  (`List (κ × β)`) with first-match lookup and update-or-append
  insertion, keyed through the `BEq` instance that mirrors the Python
  `__eq__` of the key type.
* Python exceptions (`ValueError`, `ZeroDivisionError`, `IndexError`)
  are modelled by `Except PyError`.
-/

/- `Rat.add`, `Rat.mul`, `Rat.inv`, `Rat.sub` and `Rat.ofScientific` are
marked `@[irreducible]` upstream for performance of interactive use; the
concrete evaluations below (witnesses and counterexamples) need them to
reduce. -/
unseal Rat.add Rat.mul Rat.inv Rat.sub Rat.ofScientific

namespace MCF

/-- The Python exceptions the embedded code can raise. -/
inductive PyError where
  | valueError (msg : String)
  | zeroDivisionError
  | indexError
  deriving DecidableEq, Repr

/-- `modelos.Enlace`: a directed capacitated link.  Python compares and
hashes `Enlace` by the value triple `(source, target, capacity)`; the
derived decidable equality on this structure is exactly that. -/
structure Enlace where
  source : Int
  target : Int
  capacity : Rat
  deriving DecidableEq, Repr

/-- `modelos.Path`: an ordered link sequence with a mutable traffic
share.  The Python object also carries a display-only global `id` and a
back-reference to its owning commodity; neither is ever read by the
algorithms, so they are omitted. -/
structure Path where
  enlaces : List Enlace
  trafico : Rat
  deriving DecidableEq, Repr

/-- `modelos.Commodity`: a demand between two nodes with its candidate
paths.  The display-only `name` field is omitted. -/
structure Commodity where
  source : Int
  target : Int
  requirement : Rat
  paths : List Path
  deriving Repr

/-- Python `Commodity.__eq__`/`__hash__`: value equality on the triple
`(source, target, requirement)` only — the path lists do not
participate. -/
def commodityEq (a b : Commodity) : Bool :=
  a.source == b.source && a.target == b.target && a.requirement == b.requirement

instance : BEq Commodity := ⟨commodityEq⟩

/-! ## Python `dict` as an insertion-ordered association list -/

/-- Python `d[k]` / `k in d` probe: first entry whose key equals `k`
(a `dict` holds at most one entry per key, so "first" is "the"). -/
def pyLookup [BEq κ] : List (κ × β) → κ → Option β
  | [], _ => none
  | kv :: rest, k => if kv.1 == k then some kv.2 else pyLookup rest k

/-- Python `d.get(k, dflt)`. -/
def pyGetD [BEq κ] (d : List (κ × β)) (k : κ) (dflt : β) : β :=
  (pyLookup d k).getD dflt

/-- Python `d[k] = v`: update the entry of an existing key in place
(insertion order kept), append a fresh key at the end.  Dicts built from
`[]` through this operation hold one entry per key, exactly as Python
dicts do. -/
def pyUpsert [BEq κ] : List (κ × β) → κ → β → List (κ × β)
  | [], k, v => [(k, v)]
  | kv :: rest, k, v =>
    if kv.1 == k then (kv.1, v) :: rest else kv :: pyUpsert rest k v

/-- `defaultdict(float)` accumulation: `d[k] += x` with default `0`. -/
def pyAddTo [BEq κ] (d : List (κ × Rat)) (k : κ) (x : Rat) : List (κ × Rat) :=
  pyUpsert d k (pyGetD d k 0 + x)

/-! ## `funciones.py`: the cost model -/

/-- `funciones.f_prima`: marginal cost of a link, clamped once the flow
exceeds 99% of capacity. -/
def f_prima (capacity total_flow : Rat) : Rat :=
  let p : Rat := 99/100
  if total_flow > p * capacity then
    1 / (capacity * (1 - p)^2)
  else
    capacity / (capacity - total_flow)^2

/-- `funciones.f_double_prima`: curvature of a link's cost, clamped to
zero once the flow exceeds 99% of capacity. -/
def f_double_prima (enlace : Enlace) (flujo_total : Rat) : Rat :=
  let p : Rat := 99/100
  if flujo_total > p * enlace.capacity then
    0
  else
    (2 * enlace.capacity) / (enlace.capacity - flujo_total)^3

/-! ## `funciones.py`: per-iteration derived data -/

/-- `funciones.distribuir_trafico_uniforme`: iteration-0 uniform split;
raises `ValueError` for a commodity with no paths. -/
def distribuir_trafico_uniforme (c : Commodity) : Except PyError Commodity :=
  if c.paths.length == 0 then
    .error (.valueError "no tiene paths definidos")
  else
    let trafico_unitario := c.requirement / (c.paths.length : Rat)
    .ok { c with paths := c.paths.map (fun p => { p with trafico := trafico_unitario }) }

/-- `funciones.calcular_flujo_por_enlace`: aggregate flow per link,
accumulated into a `defaultdict(float)` keyed by link value. -/
def calcular_flujo_por_enlace (commodities : List Commodity) : List (Enlace × Rat) :=
  commodities.foldl
    (fun d c => c.paths.foldl
      (fun d p => p.enlaces.foldl (fun d e => pyAddTo d e p.trafico) d) d) []

/-- The inner loop of `calcular_coste_total_por_path` for a single path:
sum of `f_prima` over the path's links at the given flows.  The Python
code indexes `flujo_por_enlace[enlace]` directly; in the program every
link of every path is a key of the flow map (the map was built from the
very same paths), so the `0` default of `pyGetD` is never consulted. -/
def coste_de_path (flujo_por_enlace : List (Enlace × Rat)) (p : Path) : Rat :=
  p.enlaces.foldl (fun acc e => acc + f_prima e.capacity (pyGetD flujo_por_enlace e 0)) 0

/-- `funciones.calcular_coste_total_por_path`: cost per
`(commodity, path-ordinal)` key, ordinals starting at 1.  The dict is
keyed through the Python value-equality of `Commodity`, so two
equal-by-value commodities write to the same keys. -/
def calcular_coste_total_por_path (commodities : List Commodity)
    (flujo_por_enlace : List (Enlace × Rat)) : List ((Commodity × Nat) × Rat) :=
  commodities.foldl
    (fun d c =>
      (c.paths.enumFrom 1).foldl
        (fun d pi => pyUpsert d (c, pi.1) (coste_de_path flujo_por_enlace pi.2)) d) []

/-- Python `min(d, key=d.get)` over a nonempty dict: first key of
minimal value (ties keep the earliest key, as iteration is in insertion
order and `min` keeps the first minimum). -/
def pyMinFold : (Nat × Rat) → List (Nat × Rat) → (Nat × Rat)
  | best, [] => best
  | best, x :: xs => pyMinFold (if x.2 < best.2 then x else best) xs

/-- The dict comprehension `{path_id: coste for (comm, path_id), coste
in costes ... if comm == commodity}` appearing both in
`seleccionar_path_minimo_coste` and in the update loop of
`funcion_principal`: the ordinal-keyed cost dict of one commodity,
where a later equal-by-value commodity's entry overwrites an earlier
one under the same ordinal. -/
def extraerCostesCommodity (costes : List ((Commodity × Nat) × Rat)) (c : Commodity) :
    List (Nat × Rat) :=
  costes.foldl (fun pc kv => if kv.1.1 == c then pyUpsert pc kv.1.2 kv.2 else pc) []

/-- `funciones.seleccionar_path_minimo_coste`: for each commodity, the
ordinal of its minimum-cost path in the given cost map (skipping
commodities with no entries). -/
def seleccionar_path_minimo_coste (commodities : List Commodity)
    (costes_path_anterior : List ((Commodity × Nat) × Rat)) : List (Commodity × Nat) :=
  commodities.foldl
    (fun d c =>
      match extraerCostesCommodity costes_path_anterior c with
      | [] => d
      | kv :: rest => pyUpsert d c (pyMinFold kv rest).1) []

/-- `funciones.calculo_del_trafico_para_la_siguiente_iteracion`: the
curvature-scaled gradient step.  Python evaluates `0.001 / H_kp` with no
guard, so `H_kp == 0` raises `ZeroDivisionError`; that is modelled by
the `.error` branch.  The parameter `t` is received and ignored, exactly
as in the source. -/
def calculo_del_trafico_para_la_siguiente_iteracion
    (_t : Nat) (x_kp_actual H_kp d_kp d_kbeta : Rat) : Except PyError Rat :=
  if H_kp == 0 then
    .error .zeroDivisionError
  else
    let termino_adaptacion := x_kp_actual - (1/1000 / H_kp) * (d_kp - d_kbeta)
    .ok (max 0 termino_adaptacion)

/-- `funciones.calcular_H_kp`: sum of `f_double_prima` over the
symmetric difference (as Python sets, i.e. by link value) of the two
paths' link sets, at the previous iteration's flows (`.get` default 0).
Python iterates the set in an unspecified order; rational addition is
commutative, so the `Finset` sum is the same value. -/
def calcular_H_kp (path_actual mejor_path : Path)
    (flujo_por_enlace_anterior : List (Enlace × Rat)) : Rat :=
  (symmDiff path_actual.enlaces.toFinset mejor_path.enlaces.toFinset).sum
    (fun e => f_double_prima e (pyGetD flujo_por_enlace_anterior e 0))

/-! ## `funciones.funcion_principal`: the engine loop -/

/-- The per-iteration ledgers of `funcion_principal` (`iteraciones`
dict): per-link flow maps, per-(commodity, ordinal) cost maps, and
per-commodity reference-path selections, one entry per completed
iteration. -/
structure Iteraciones where
  flujo_total : List (List (Enlace × Rat))
  costes_path : List (List ((Commodity × Nat) × Rat))
  shortest_paths : List (List (Commodity × Nat))

/-- The inner `for path_id, coste_actual in costes_commodity.items()`
loop of `funcion_principal` for one commodity: updates every
non-reference path by the gradient rule, threading the mutated path list
and `suma_flujo_otros`.  `paths.get?` models the Python list index
(raising `IndexError` out of range); the reference path is read inside
the loop (`mejor_path`), before it is overwritten after the loop. -/
def pasoNoRef (i : Nat) (flujoPrev : List (Enlace × Rat)) (dkbeta : Rat) (pmin : Nat) :
    List (Nat × Rat) → List Path × Rat → Except PyError (List Path × Rat)
  | [], acc => .ok acc
  | (pid, coste) :: rest, (paths, suma) =>
    if pid == pmin then
      pasoNoRef i flujoPrev dkbeta pmin rest (paths, suma)
    else
      match paths[pid - 1]? with
      | none => .error .indexError
      | some path_actual =>
        match paths[pmin - 1]? with
        | none => .error .indexError
        | some mejor_path =>
          let H_kp := calcular_H_kp path_actual mejor_path flujoPrev
          match calculo_del_trafico_para_la_siguiente_iteracion i path_actual.trafico H_kp coste dkbeta with
          | .error e => .error e
          | .ok nuevo_trafico =>
            pasoNoRef i flujoPrev dkbeta pmin rest
              (paths.set (pid - 1) { path_actual with trafico := nuevo_trafico }, suma + nuevo_trafico)

/-- One commodity's update at iteration `i > 0`: rebuild the
ordinal-keyed cost dict from the previous cost snapshot, pick the
reference path (first minimum, Python `min` over insertion order),
update every other path by the gradient rule, then assign the reference
path the residual `max(0, requirement - suma_flujo_otros)`. -/
def pasoCommodity (i : Nat) (costesPrev : List ((Commodity × Nat) × Rat))
    (flujoPrev : List (Enlace × Rat)) (c : Commodity) : Except PyError Commodity :=
  match extraerCostesCommodity costesPrev c with
  | [] => .ok c
  | kv :: rest =>
    let pmin := (pyMinFold kv rest).1
    let dkbeta := (pyMinFold kv rest).2
    match pasoNoRef i flujoPrev dkbeta pmin (kv :: rest) (c.paths, 0) with
    | .error e => .error e
    | .ok (paths1, suma) =>
      match paths1[pmin - 1]? with
      | none => .error .indexError
      | some pref =>
        .ok { c with paths :=
          (paths1.set (pmin - 1) { pref with trafico := max 0 (c.requirement - suma) }) }

/-- Sequential update of all commodities at iteration `i > 0`. -/
def actualizarCommodities (i : Nat) (costesPrev : List ((Commodity × Nat) × Rat))
    (flujoPrev : List (Enlace × Rat)) :
    List Commodity → Except PyError (List Commodity)
  | [] => .ok []
  | c :: cs =>
    match pasoCommodity i costesPrev flujoPrev c with
    | .error e => .error e
    | .ok c2 =>
      match actualizarCommodities i costesPrev flujoPrev cs with
      | .error e => .error e
      | .ok cs2 => .ok (c2 :: cs2)

/-- Iteration-0 initialization over all commodities (sequential, first
zero-path commodity raises). -/
def inicializarCommodities : List Commodity → Except PyError (List Commodity)
  | [] => .ok []
  | c :: cs =>
    match distribuir_trafico_uniforme c with
    | .error e => .error e
    | .ok c2 =>
      match inicializarCommodities cs with
      | .error e => .error e
      | .ok cs2 => .ok (c2 :: cs2)

/-- One full iteration of the `for i in range(200)` loop: update (or
initialize at `i = 0`) traffic, then recompute and append the three
ledger entries.  The previous iteration's snapshots are
`acc.costes_path[i-1]` / `acc.flujo_total[i-1]`, i.e. the last appended
entries. -/
def pasoIteracion (i : Nat) (cs : List Commodity) (acc : Iteraciones) :
    Except PyError (List Commodity × Iteraciones) :=
  let actualizado : Except PyError (List Commodity) :=
    if i == 0 then
      inicializarCommodities cs
    else
      actualizarCommodities i (acc.costes_path.getLastD []) (acc.flujo_total.getLastD []) cs
  match actualizado with
  | .error e => .error e
  | .ok cs2 =>
    let flujo_total := calcular_flujo_por_enlace cs2
    let costes_path := calcular_coste_total_por_path cs2 flujo_total
    let shortest_paths := seleccionar_path_minimo_coste cs2 costes_path
    .ok (cs2,
      { flujo_total := acc.flujo_total ++ [flujo_total]
        costes_path := acc.costes_path ++ [costes_path]
        shortest_paths := acc.shortest_paths ++ [shortest_paths] })

/-- The loop `for i in range(...)`, running `n` iterations starting at
index `i`. -/
def correr : Nat → Nat → List Commodity → Iteraciones →
    Except PyError (List Commodity × Iteraciones)
  | 0, _, cs, acc => .ok (cs, acc)
  | n + 1, i, cs, acc =>
    match pasoIteracion i cs acc with
    | .error e => .error e
    | .ok (cs2, acc2) => correr n (i + 1) cs2 acc2

/-- `funciones.funcion_principal`: 200 iterations from an empty ledger,
returning the ledger (`return iteraciones`). -/
def funcion_principal (commodities : List Commodity) : Except PyError Iteraciones :=
  (correr 200 0 commodities ⟨[], [], []⟩).map (·.2)

/-- The commodity state (path traffics) after the first `n` iterations
of `funcion_principal` — `n = 1` is the state right after the
iteration-0 initialization. -/
def estadoTras (commodities : List Commodity) (n : Nat) : Except PyError (List Commodity) :=
  (correr n 0 commodities ⟨[], [], []⟩).map (·.1)

/-! ## Path discovery (`fat_tree_topology.py`, `ring_topology.py`) -/

/-- `construir_grafo_adyacencia` (identical in both topology files):
depthwise fold building the node → outgoing `(neighbor, link)` adjacency
dict in first-encounter key order. -/
def construir_grafo_adyacencia (enlaces : List Enlace) : List (Int × List (Int × Enlace)) :=
  enlaces.foldl
    (fun grafo e =>
      match pyLookup grafo e.source with
      | none => grafo ++ [(e.source, [(e.target, e)])]
      | some vecinos => pyUpsert grafo e.source (vecinos ++ [(e.target, e)]))
    []

/-- The BFS loop shared by `encontrar_k_paths_mas_cortos` and
`encontrar_k_paths_bfs`: pops `(node, dist)` from the deque, skips the
target and the nodes without outgoing links, and enqueues each neighbor
not yet in `distancias` with distance `dist + 1`, recording it.  `fuel`
only forces termination: each enqueue adds a key never seen before, so
the number of pops over the whole run is at most `1 + enlaces.length`,
and the callers pass more fuel than that. -/
def bfsAux (grafo : List (Int × List (Int × Enlace))) (target : Int) :
    Nat → List (Int × Nat) → List (Int × Nat) → List (Int × Nat)
  | 0, _, distancias => distancias
  | _ + 1, [], distancias => distancias
  | fuel + 1, (nodo, dist) :: rest, distancias =>
    if nodo == target then
      bfsAux grafo target fuel rest distancias
    else
      match pyLookup grafo nodo with
      | none => bfsAux grafo target fuel rest distancias
      | some vecinos =>
        let qd := vecinos.foldl
          (fun (qd : List (Int × Nat) × List (Int × Nat)) ve =>
            if (pyLookup qd.2 ve.1).isSome then qd
            else (qd.1 ++ [(ve.1, dist + 1)], qd.2 ++ [(ve.1, dist + 1)]))
          (rest, distancias)
        bfsAux grafo target fuel qd.1 qd.2

/-- The `dfs` closure of `encontrar_k_paths_mas_cortos`: cutoff on the
running length counter (`longitud`, which always equals the length of
`camino_actual`), record at the target, and expand neighbors whose node
is not a source of a link already on the partial path.  `fuel` also
counts `maxLen + 1 - camino.length`, so `fuel = 0` is exactly the
Python cutoff `longitud > max_length_to_explore`. -/
def dfsFat (grafo : List (Int × List (Int × Enlace))) (target : Int) :
    Nat → Int → List Enlace → List (List Enlace)
  | 0, _, _ => []
  | fuel + 1, nodo_actual, camino_actual =>
    if nodo_actual == target then
      [camino_actual]
    else
      match pyLookup grafo nodo_actual with
      | none => []
      | some vecinos =>
        vecinos.foldl
          (fun acc ve =>
            if (camino_actual.map (fun e => e.source)).contains ve.1 then acc
            else acc ++ dfsFat grafo target fuel ve.1 (camino_actual ++ [ve.2]))
          []

/-- The `dfs` closure of `encontrar_k_paths_bfs`: cutoff on
`len(camino_actual) > max_length`, record at the target, and expand
neighbors not in `visitados` (extending `visitados` down the branch, the
pure rendering of Python's add/remove backtracking).  The Python source
also has an early `return` once `k * 3` candidates were collected, but
both branches of that `if` return, so it has no effect and is not
reproduced.  `fuel ≥ maxLen + 2 - camino.length` makes the `fuel = 0`
branch unreachable before the length cutoff. -/
def dfsRing (grafo : List (Int × List (Int × Enlace))) (target : Int) (maxLen : Nat) :
    Nat → Int → List Enlace → List Int → List (List Enlace)
  | 0, _, _, _ => []
  | fuel + 1, nodo_actual, camino_actual, visitados =>
    if camino_actual.length > maxLen then
      []
    else if nodo_actual == target then
      [camino_actual]
    else
      match pyLookup grafo nodo_actual with
      | none => []
      | some vecinos =>
        vecinos.foldl
          (fun acc ve =>
            if visitados.contains ve.1 then acc
            else acc ++ dfsRing grafo target maxLen fuel ve.1 (camino_actual ++ [ve.2])
                   (visitados ++ [ve.1]))
          []

/-- Stable insertion into a length-sorted list: the new element goes
after strictly shorter ones and before equal-length ones, matching the
stability of Python `list.sort(key=len)`. -/
def insertarPorLongitud (p : List Enlace) : List (List Enlace) → List (List Enlace)
  | [] => [p]
  | q :: qs => if q.length < p.length then q :: insertarPorLongitud p qs else p :: q :: qs

/-- Stable ascending sort by hop count (`todos_caminos.sort(key=len)`). -/
def ordenarPorLongitud : List (List Enlace) → List (List Enlace)
  | [] => []
  | p :: ps => insertarPorLongitud p (ordenarPorLongitud ps)

/-- `fat_tree_topology.encontrar_k_paths_mas_cortos`: BFS distance, DFS
enumeration bounded at `dist_min + 2` hops, sort by length, truncate to
`k`. -/
def encontrar_k_paths_mas_cortos (source target : Int) (enlaces : List Enlace)
    (k : Nat) : List (List Enlace) :=
  if source == target then
    [[]]
  else
    let grafo := construir_grafo_adyacencia enlaces
    let distancias := bfsAux grafo target ((enlaces.length + 2) * (enlaces.length + 2))
      [(source, 0)] [(source, 0)]
    match pyLookup distancias target with
    | none => []
    | some dist_min =>
      let max_length_to_explore := dist_min + 2
      let todos_caminos := dfsFat grafo target (max_length_to_explore + 1) source []
      (ordenarPorLongitud todos_caminos).take k

/-- `ring_topology.encontrar_k_paths_bfs`: same structure with an
optional explicit hop cap (`None` → `dist_min + 3`) and a proper
visited set in the DFS. -/
def encontrar_k_paths_bfs (source target : Int) (enlaces : List Enlace)
    (k : Nat) (max_length : Option Nat) : List (List Enlace) :=
  if source == target then
    [[]]
  else
    let grafo := construir_grafo_adyacencia enlaces
    let distancias := bfsAux grafo target ((enlaces.length + 2) * (enlaces.length + 2))
      [(source, 0)] [(source, 0)]
    match pyLookup distancias target with
    | none => []
    | some dist_min =>
      let maxLen := max_length.getD (dist_min + 3)
      let todos_caminos := dfsRing grafo target maxLen (maxLen + 2) source [] [source]
      (ordenarPorLongitud todos_caminos).take k

/-! ## Vocabulary for the path-discovery claims -/

/-- `Path.nodos` in `modelos.py`: the node sequence of a link list —
empty for the empty list, else the first source followed by every
target. -/
def pathNodes : List Enlace → List Int
  | [] => []
  | e :: rest => e.source :: (e :: rest).map (fun l => l.target)

/-- A path is simple when it visits no node twice. -/
def esSimple (p : List Enlace) : Prop := (pathNodes p).Nodup

/-- `camino` is a contiguous link chain from `s` to `n`. -/
def esCadena : Int → List Enlace → Int → Bool
  | s, [], n => s == n
  | s, e :: rest, n => s == e.source && esCadena e.target rest n

/-- `n` is reachable from `s` in the directed adjacency built from the
link set: some contiguous chain of links of the set joins them. -/
def Alcanzable (enlaces : List Enlace) (s n : Int) : Prop :=
  ∃ camino : List Enlace, (∀ e ∈ camino, e ∈ enlaces) ∧ esCadena s camino n = true

/-- Ascending hop counts. -/
def ordenadoAscendente (l : List (List Enlace)) : Prop :=
  l.Pairwise (fun a b => a.length ≤ b.length)

/-! ## Vocabulary for the claims about the engine -/

/-- Recognizer for a run aborted by the unguarded `0.001 / H_kp`
division. -/
def esZeroDivision : Except PyError Iteraciones → Bool
  | .error .zeroDivisionError => true
  | _ => false

/-- The shape the ordinal-keyed cost dict of a commodity with `n` paths
has inside a run: keys `1..n` in order, key `j` carrying the previous
iteration's cost `d j` of the `j`-th path. -/
def costesCanonicos (n : Nat) (d : Nat → Rat) : List (Nat × Rat) :=
  (List.range n).map (fun j => (j + 1, d (j + 1)))

/-- The reference-path ordinal a commodity's update uses: Python
`min(costes_commodity, key=costes_commodity.get)` (first minimum in
insertion order; `0` for an empty dict, which the engine never queries). -/
def pathMinimoId : List (Nat × Rat) → Nat
  | [] => 0
  | kv :: rest => (pyMinFold kv rest).1

/-- Sum of the traffics of all paths except the one at position `beta`
(0-based). -/
def sumaOtros (paths : List Path) (beta : Nat) : Rat :=
  (((List.range paths.length).filter (fun j => decide (j ≠ beta))).map
    (fun j => (paths[j]?.getD ⟨[], 0⟩).trafico)).sum

/-- The flow-accounting specification: the sum of `trafico` over every
path, across all commodities, whose link sequence contains the link `e`
(matched by value). -/
def sumaTraficoEn (cs : List Commodity) (e : Enlace) : Rat :=
  (cs.map (fun c =>
    ((c.paths.filter (fun p => decide (e ∈ p.enlaces))).map Path.trafico).sum)).sum

/-- The node sequence of a link chain that starts at `s`: `s` followed
by every link's target. -/
def caminoNodos (s : Int) (camino : List Enlace) : List Int :=
  s :: camino.map (fun e => e.target)

/-- The properties the path-discovery claim asserts of a returned path
list: at most `k` paths, all simple, sorted ascending by hop count,
`[[]]` exactly for `source == target`, and `[]` whenever the target is
unreachable. -/
def propsDescubrimiento (source target : Int) (enlaces : List Enlace) (k : Nat)
    (r : List (List Enlace)) : Prop :=
  (source ≠ target → r.length ≤ k) ∧ (∀ p ∈ r, esSimple p) ∧ ordenadoAscendente r ∧
    (r = [[]] ↔ source = target) ∧ (¬ Alcanzable enlaces source target → r = [])

/-! ## Concrete inputs used by witnesses -/

/-- A two-path commodity in its post-initialization state (requirement 4
split 2/2), used to witness the update-step claims at iteration 1. -/
def commodityW : Commodity := ⟨1, 2, 4, [⟨[⟨1, 2, 5⟩], 2⟩, ⟨[⟨1, 2, 3⟩], 2⟩]⟩

/-- The iteration-0 flow snapshot of `commodityW`. -/
def flujoW : List (Enlace × Rat) := calcular_flujo_por_enlace [commodityW]

/-- The iteration-0 cost snapshot of `commodityW`. -/
def costesW : List ((Commodity × Nat) × Rat) :=
  calcular_coste_total_por_path [commodityW] flujoW

/-- The per-ordinal costs of `commodityW` at iteration 0:
`f_prima 5 4 = 5/9` for path 1 and `f_prima 3 4 = 3` (saturated clamp)
for path 2. -/
def dW : Nat → Rat := fun j => if j = 1 then 5/9 else 3

/-- `commodityW` after the iteration-1 update: path 2 moves by the
gradient step, path 1 (the reference) absorbs the residual. -/
def commodityW2 : Commodity :=
  ⟨1, 2, 4, [⟨[⟨1, 2, 5⟩], 172033/86000⟩, ⟨[⟨1, 2, 3⟩], 171967/86000⟩]⟩

/-! ## Lemmas about the dict model -/

theorem pyLookup_pyUpsert [BEq κ]
    (hsymm : ∀ x y : κ, (x == y) = true → (y == x) = true)
    (htrans : ∀ x y z : κ, (x == y) = true → (y == z) = true → (x == z) = true)
    (d : List (κ × β)) (a k : κ) (v : β) :
    pyLookup (pyUpsert d a v) k = if (a == k) = true then some v else pyLookup d k := by
  induction d with
  | nil =>
    simp only [pyUpsert, pyLookup]
  | cons kv rest ih =>
    by_cases h1 : (kv.1 == a) = true
    · by_cases h2 : (a == k) = true
      · have h3 : (kv.1 == k) = true := htrans _ _ _ h1 h2
        simp [pyUpsert, pyLookup, h1, h2, h3]
      · have h3 : ¬ (kv.1 == k) = true := by
          intro hc
          exact h2 (htrans _ _ _ (hsymm _ _ h1) hc)
        simp [pyUpsert, pyLookup, h1, h2, h3]
    · by_cases h2 : (a == k) = true
      · have h3 : ¬ (kv.1 == k) = true := by
          intro hc
          exact h1 (htrans _ _ _ hc (hsymm _ _ h2))
        simp [pyUpsert, pyLookup, h1, h2, h3, ih]
      · by_cases h3 : (kv.1 == k) = true
        · simp [pyUpsert, pyLookup, h1, h2, h3]
        · simp [pyUpsert, pyLookup, h1, h2, h3, ih]

/-- Lookup of a key in a dict refreshed by `pyUpsert` at that key (keys
compared by a lawful `BEq`, e.g. `Enlace` or `Nat`). -/
theorem pyLookup_pyUpsert_lawful [DecidableEq κ] [BEq κ] [LawfulBEq κ]
    (d : List (κ × β)) (a k : κ) (v : β) :
    pyLookup (pyUpsert d a v) k = if a = k then some v else pyLookup d k := by
  have h := pyLookup_pyUpsert (κ := κ) (β := β)
    (fun x y hxy => by simp_all) (fun x y z hxy hyz => by simp_all) d a k v
  simpa using h

theorem pyGetD_pyAddTo [DecidableEq κ] [BEq κ] [LawfulBEq κ]
    (d : List (κ × Rat)) (a k : κ) (x : Rat) :
    pyGetD (pyAddTo d a x) k 0 =
      if k = a then pyGetD d k 0 + x else pyGetD d k 0 := by
  unfold pyAddTo pyGetD
  rw [pyLookup_pyUpsert_lawful]
  by_cases h : a = k
  · subst h
    simp
  · have h2 : ¬ k = a := fun hc => h hc.symm
    simp [h, h2]

theorem pyLookup_mem [BEq κ] (d : List (κ × β)) (k : κ) (v : β)
    (h : pyLookup d k = some v) : ∃ k2, (k2, v) ∈ d ∧ (k2 == k) = true := by
  induction d with
  | nil => simp [pyLookup] at h
  | cons kv rest ih =>
    by_cases h1 : (kv.1 == k) = true
    · simp [pyLookup, h1] at h
      exact ⟨kv.1, by simp [← h], h1⟩
    · simp [pyLookup, h1] at h
      obtain ⟨k2, hm, hk⟩ := ih h
      exact ⟨k2, by simp [hm], hk⟩

/-- Generic preservation of an invariant under `List.foldl`. -/
theorem foldl_inv {σ α : Type} (P : σ → Prop) (step : σ → α → σ) (l : List α)
    (h : ∀ a ∈ l, ∀ s, P s → P (step s a)) : ∀ s, P s → P (l.foldl step s) := by
  induction l with
  | nil => intro s hs; simpa using hs
  | cons a rest ih =>
    intro s hs
    simp only [List.foldl_cons]
    exact ih (fun b hb t ht => h b (by simp [hb]) t ht) _ (h a (by simp) s hs)

/-- Membership in the accumulate-append folds used by the DFS
enumerations. -/
theorem mem_foldl_append {α β : Type} (f : α → List β) (l : List α) (init : List β) (p : β) :
    p ∈ l.foldl (fun acc x => acc ++ f x) init ↔ p ∈ init ∨ ∃ x ∈ l, p ∈ f x := by
  induction l generalizing init with
  | nil => simp
  | cons a rest ih =>
    simp only [List.foldl_cons, ih, List.mem_append, List.mem_cons]
    constructor
    · rintro (⟨h | h⟩ | ⟨x, hx, hp⟩)
      · exact Or.inl h
      · exact Or.inr ⟨a, Or.inl rfl, h⟩
      · exact Or.inr ⟨x, Or.inr hx, hp⟩
    · rintro (h | ⟨x, hx | hx, hp⟩)
      · exact Or.inl (Or.inl h)
      · exact Or.inl (Or.inr (hx ▸ hp))
      · exact Or.inr ⟨x, hx, hp⟩

/-! ## Lemmas about the engine loop -/

theorem distribuir_error_shape (c : Commodity) (e : PyError)
    (h : distribuir_trafico_uniforme c = .error e) :
    e = .valueError "no tiene paths definidos" ∧ c.paths = [] := by
  unfold distribuir_trafico_uniforme at h
  by_cases hl : c.paths.length == 0
  · rw [if_pos hl] at h
    refine ⟨by injection h with h2; exact h2.symm, ?_⟩
    simpa using List.eq_nil_of_length_eq_zero (by simpa using hl)
  · rw [if_neg hl] at h
    exact absurd h (by simp)

theorem inicializar_error (cs : List Commodity) (h : ∃ c ∈ cs, c.paths = []) :
    inicializarCommodities cs = .error (.valueError "no tiene paths definidos") := by
  induction cs with
  | nil => simp at h
  | cons c rest ih =>
    obtain ⟨c0, hc0, hp⟩ := h
    rcases List.mem_cons.mp hc0 with rfl | hmem
    · simp [inicializarCommodities, distribuir_trafico_uniforme, hp]
    · unfold inicializarCommodities
      cases hd : distribuir_trafico_uniforme c with
      | error e =>
        obtain ⟨he, -⟩ := distribuir_error_shape c e hd
        simp [he]
      | ok c2 => rw [ih ⟨c0, hmem, hp⟩]

theorem inicializar_ok (cs : List Commodity) (h : ∀ c ∈ cs, c.paths ≠ []) :
    ∃ cs2, inicializarCommodities cs = .ok cs2 ∧
      List.Forall₂ (fun c c2 => c2.paths.length = c.paths.length ∧
        ∀ p ∈ c2.paths, p.trafico = c.requirement / (c.paths.length : Rat)) cs cs2 := by
  induction cs with
  | nil => exact ⟨[], rfl, List.Forall₂.nil⟩
  | cons c rest ih =>
    obtain ⟨cs2, hok, hall⟩ := ih (fun c hc => h c (List.mem_cons_of_mem _ hc))
    have hne : ¬ c.paths.length == 0 := by
      simpa using fun hc => h c (List.mem_cons_self _ _) (List.eq_nil_of_length_eq_zero hc)
    refine ⟨{ c with paths := (c.paths.map
        (fun p => { p with trafico := c.requirement / (c.paths.length : Rat) })) } :: cs2,
      ?_, ?_⟩
    · unfold inicializarCommodities distribuir_trafico_uniforme
      rw [if_neg hne, hok]
    · refine List.Forall₂.cons ⟨by simp, ?_⟩ hall
      intro p hp
      obtain ⟨q, -, rfl⟩ := List.mem_map.mp hp
      rfl

theorem correr_error_head (n i : Nat) (cs : List Commodity) (acc : Iteraciones)
    (e : PyError) (h : pasoIteracion i cs acc = .error e) :
    correr (n + 1) i cs acc = .error e := by
  unfold correr
  rw [h]

/-- C5: at iteration 0 every commodity's requirement is split uniformly
over its paths, and a commodity with zero paths makes the whole engine
run raise `ValueError` (the error escapes `funcion_principal`, so no
iteration completes and no ledger is produced — the commodity is never
silently skipped). -/
theorem claimC5 (cs : List Commodity) :
    ((∀ c ∈ cs, c.paths ≠ []) →
      ∃ cs2, inicializarCommodities cs = .ok cs2 ∧
        List.Forall₂ (fun c c2 => c2.paths.length = c.paths.length ∧
          ∀ p ∈ c2.paths, p.trafico = c.requirement / (c.paths.length : Rat)) cs cs2) ∧
    ((∃ c ∈ cs, c.paths = []) →
      funcion_principal cs = .error (.valueError "no tiene paths definidos")) := by
  constructor
  · exact inicializar_ok cs
  · intro hex
    have hinit := inicializar_error cs hex
    have hpaso : pasoIteracion 0 cs ⟨[], [], []⟩ =
        .error (.valueError "no tiene paths definidos") := by
      unfold pasoIteracion
      simp [hinit]
    unfold funcion_principal
    rw [show (200 : Nat) = 199 + 1 from rfl, correr_error_head _ _ _ _ _ hpaso]
    rfl

theorem claimC5_witness :
    (∃ cs2, inicializarCommodities
        [(⟨1, 2, 6, [⟨[⟨1, 2, 5⟩], 0⟩, ⟨[⟨1, 3, 5⟩], 0⟩]⟩ : Commodity)] = .ok cs2 ∧
      List.Forall₂ (fun (c c2 : Commodity) => c2.paths.length = c.paths.length ∧
        ∀ p ∈ c2.paths, p.trafico = c.requirement / (c.paths.length : Rat))
        [⟨1, 2, 6, [⟨[⟨1, 2, 5⟩], 0⟩, ⟨[⟨1, 3, 5⟩], 0⟩]⟩] cs2) ∧
    funcion_principal [⟨7, 8, 1, []⟩] = .error (.valueError "no tiene paths definidos") :=
  ⟨(claimC5 _).1 (by
      intro c hc
      rw [List.mem_singleton.mp hc]
      simp),
   (claimC5 [⟨7, 8, 1, []⟩]).2 ⟨⟨7, 8, 1, []⟩, ⟨List.Mem.head _, rfl⟩⟩⟩

/-- C1: at the failing input — one commodity whose two paths use the
identical link, so the symmetric difference is empty and `H_kp = 0` at
iteration 1 — the engine does not apply the prescribed skip policy: the
unguarded `0.001 / H_kp` raises `ZeroDivisionError` and the whole run
aborts.  Numeric degeneracy is fatal in the code, contradicting the
claim. -/
theorem claimC1 :
    esZeroDivision (funcion_principal
      [⟨1, 2, 4, [⟨[⟨1, 2, 5⟩], 0⟩, ⟨[⟨1, 2, 5⟩], 0⟩]⟩]) = true := by
  rfl

/-- C7 (corrected part kept): for any positive capacity, the two
branches of `f_prima` agree exactly at the threshold `x = 0.99c`, while
the two branches of `f_double_prima` differ there by `2000000 / c²` —
the curvature is clamped discontinuously to zero, so its branches are
not close at the threshold. -/
theorem claimC7 (e : Enlace) (x : Rat) (hc : 0 < e.capacity)
    (hx : 99/100 * e.capacity < x) :
    f_prima e.capacity (99/100 * e.capacity) = 1 / (e.capacity * (1 - 99/100)^2) ∧
    f_double_prima e (99/100 * e.capacity) = 2000000 / e.capacity^2 ∧
    f_double_prima e x = 0 := by
  have hne : e.capacity ≠ 0 := ne_of_gt hc
  have h100 : e.capacity - 99/100 * e.capacity = e.capacity / 100 := by ring
  have hd1 : (e.capacity / 100 : Rat) ≠ 0 := by
    simp [div_eq_zero_iff, hne]
  refine ⟨?_, ?_, ?_⟩
  · rw [f_prima]
    rw [if_neg (lt_irrefl _), h100,
      div_eq_div_iff (pow_ne_zero 2 hd1) (mul_ne_zero hne (by norm_num))]
    ring
  · rw [f_double_prima]
    rw [if_neg (lt_irrefl _), h100,
      div_eq_div_iff (pow_ne_zero 3 hd1) (pow_ne_zero 2 hne)]
    ring
  · rw [f_double_prima]
    rw [if_pos hx]

theorem claimC7_witness :
    (0 < ((⟨1, 2, 1⟩ : Enlace)).capacity ∧ 99/100 * ((⟨1, 2, 1⟩ : Enlace)).capacity < (1 : Rat)) ∧
    (f_prima ((⟨1, 2, 1⟩ : Enlace)).capacity (99/100 * ((⟨1, 2, 1⟩ : Enlace)).capacity) =
        1 / (((⟨1, 2, 1⟩ : Enlace)).capacity * (1 - 99/100)^2) ∧
      f_double_prima ⟨1, 2, 1⟩ (99/100 * ((⟨1, 2, 1⟩ : Enlace)).capacity) =
        2000000 / ((⟨1, 2, 1⟩ : Enlace)).capacity^2 ∧
      f_double_prima ⟨1, 2, 1⟩ 1 = 0) :=
  ⟨⟨by decide, by decide⟩, claimC7 ⟨1, 2, 1⟩ 1 (by decide) (by decide)⟩

/-- C7, the failing half as frozen: at capacity 1 the unsaturated branch
of `f_double_prima` evaluates to `2000000` at the threshold while the
saturated branch is the constant `0`, a gap far beyond any small
tolerance — the claim that the two branches of `f″` are numerically
close at `x = 0.99c` is false. -/
theorem claimC7_counterexample :
    f_double_prima ⟨1, 2, 1⟩ (99/100) = 2000000 ∧
    f_double_prima ⟨1, 2, 1⟩ 1 = 0 ∧ ¬ ((2000000 : Rat) - 0 ≤ 1) := by
  refine ⟨by decide, by decide, by decide⟩

/-! ## C8: the ledgers after a completed run -/

theorem pasoIteracion_longitudes (i : Nat) (cs : List Commodity) (acc : Iteraciones)
    (res : List Commodity × Iteraciones) (h : pasoIteracion i cs acc = .ok res) :
    res.2.flujo_total.length = acc.flujo_total.length + 1 ∧
    res.2.costes_path.length = acc.costes_path.length + 1 ∧
    res.2.shortest_paths.length = acc.shortest_paths.length + 1 := by
  unfold pasoIteracion at h
  cases hact : (if i == 0 then inicializarCommodities cs
      else actualizarCommodities i (acc.costes_path.getLastD []) (acc.flujo_total.getLastD []) cs) with
  | error e => rw [hact] at h; exact absurd h (by simp)
  | ok cs2 =>
    rw [hact] at h
    simp only [Except.ok.injEq] at h
    subst h
    simp

theorem correr_longitudes : ∀ (n i : Nat) (cs : List Commodity) (acc : Iteraciones)
    (res : List Commodity × Iteraciones), correr n i cs acc = .ok res →
    res.2.flujo_total.length = acc.flujo_total.length + n ∧
    res.2.costes_path.length = acc.costes_path.length + n ∧
    res.2.shortest_paths.length = acc.shortest_paths.length + n := by
  intro n
  induction n with
  | zero =>
    intro i cs acc res h
    unfold correr at h
    simp only [Except.ok.injEq] at h
    subst h
    simp
  | succ m ih =>
    intro i cs acc res h
    unfold correr at h
    cases hp : pasoIteracion i cs acc with
    | error e => rw [hp] at h; exact absurd h (by simp)
    | ok p =>
      rw [hp] at h
      obtain ⟨h1, h2, h3⟩ := ih (i + 1) p.1 p.2 res h
      obtain ⟨g1, g2, g3⟩ := pasoIteracion_longitudes i cs acc p hp
      refine ⟨?_, ?_, ?_⟩ <;> omega

/-- C8 (amended): whenever `funcion_principal` returns at all — i.e. the
run is not aborted by the unguarded `H_kp = 0` division — it has run
exactly 200 iterations, appending exactly one entry per iteration to
each ledger, so all three ledgers have exactly 200 entries. -/
theorem claimC8 (cs : List Commodity) :
    match funcion_principal cs with
    | .ok r => r.flujo_total.length = 200 ∧ r.costes_path.length = 200 ∧
        r.shortest_paths.length = 200
    | .error _ => True := by
  cases h : funcion_principal cs with
  | error e => trivial
  | ok r =>
    unfold funcion_principal at h
    cases hc : correr 200 0 cs ⟨[], [], []⟩ with
    | error e => rw [hc] at h; exact absurd h (by simp [Except.map])
    | ok res =>
      rw [hc] at h
      simp only [Except.map, Except.ok.injEq] at h
      subst h
      simpa using correr_longitudes 200 0 cs ⟨[], [], []⟩ res hc

/-- C8, as frozen, is false: this commodity list gives every commodity
at least one path, yet the run aborts with `ZeroDivisionError` at
iteration 1 (the two paths share their only link, so `H_kp = 0`), so the
engine does not complete 200 iterations and returns no ledger. -/
theorem claimC8_counterexample :
    (([⟨3, 4, 2, [⟨[⟨3, 4, 7⟩], 0⟩, ⟨[⟨3, 4, 7⟩], 0⟩]⟩] : List Commodity).all
      (fun c => !c.paths.isEmpty)) = true ∧
    esZeroDivision (funcion_principal
      [⟨3, 4, 2, [⟨[⟨3, 4, 7⟩], 0⟩, ⟨[⟨3, 4, 7⟩], 0⟩]⟩]) = true := by
  exact ⟨rfl, rfl⟩

/-! ## C6: the flow-accounting invariant -/

theorem pyGetD_foldl_pyAddTo (enlaces : List Enlace) (e : Enlace) (t : Rat) :
    ∀ d : List (Enlace × Rat), enlaces.Nodup →
    pyGetD (enlaces.foldl (fun d en => pyAddTo d en t) d) e 0 =
      pyGetD d e 0 + (if e ∈ enlaces then t else 0) := by
  induction enlaces with
  | nil => intro d _; simp
  | cons en rest ih =>
    intro d hnd
    rw [List.nodup_cons] at hnd
    rw [List.foldl_cons, ih _ hnd.2, pyGetD_pyAddTo]
    by_cases he : e = en
    · subst he
      simp [hnd.1]
    · simp [he, List.mem_cons]

theorem pyGetD_foldl_paths (paths : List Path) (e : Enlace) :
    ∀ d : List (Enlace × Rat), (∀ p ∈ paths, p.enlaces.Nodup) →
    pyGetD (paths.foldl
        (fun d p => p.enlaces.foldl (fun d en => pyAddTo d en p.trafico) d) d) e 0 =
      pyGetD d e 0 +
        ((paths.filter (fun p => decide (e ∈ p.enlaces))).map Path.trafico).sum := by
  induction paths with
  | nil => intro d _; simp
  | cons p rest ih =>
    intro d hnd
    rw [List.foldl_cons, ih _ (fun q hq => hnd q (List.mem_cons_of_mem _ hq)),
      pyGetD_foldl_pyAddTo _ _ _ _ (hnd p (List.mem_cons_self _ _))]
    by_cases hc : e ∈ p.enlaces
    · simp [List.filter_cons, hc]
      ring
    · simp [List.filter_cons, hc]

/-- C6: for every link, the aggregate flow the engine records equals the
sum of `trafico` over every path of every commodity whose link sequence
contains that link, matched by link value; a link on no path has no
entry, and the `pyGetD _ _ 0` read returns the same `0` as the empty
sum.  The hypothesis — no path lists the same link twice — holds for
every path the program builds (discovery only returns simple paths, and
a simple path cannot repeat a link). -/
theorem claimC6 (cs : List Commodity) (e : Enlace)
    (h : ∀ c ∈ cs, ∀ p ∈ c.paths, p.enlaces.Nodup) :
    pyGetD (calcular_flujo_por_enlace cs) e 0 = sumaTraficoEn cs e := by
  unfold calcular_flujo_por_enlace sumaTraficoEn
  have main : ∀ d : List (Enlace × Rat),
      pyGetD (cs.foldl (fun d c => c.paths.foldl
          (fun d p => p.enlaces.foldl (fun d en => pyAddTo d en p.trafico) d) d) d) e 0 =
        pyGetD d e 0 + (cs.map (fun c =>
          ((c.paths.filter (fun p => p.enlaces.contains e)).map Path.trafico).sum)).sum := by
    induction cs with
    | nil => intro d; simp
    | cons c rest ih =>
      intro d
      rw [List.foldl_cons, ih (fun c2 hc2 => h c2 (List.mem_cons_of_mem _ hc2)),
        pyGetD_foldl_paths _ _ _ (h c (List.mem_cons_self _ _))]
      simp
      ring
    -- the `cs` induction needs `h` restricted; handled inline above
  have := main []
  simpa [pyGetD, pyLookup] using this

theorem claimC6_witness :
    (∀ c ∈ [(⟨1, 2, 2, [⟨[⟨1, 2, 5⟩], 2⟩]⟩ : Commodity),
            ⟨1, 3, 3, [⟨[⟨1, 2, 5⟩, ⟨2, 3, 4⟩], 3⟩]⟩],
      ∀ p ∈ c.paths, p.enlaces.Nodup) ∧
    pyGetD (calcular_flujo_por_enlace
      [⟨1, 2, 2, [⟨[⟨1, 2, 5⟩], 2⟩]⟩, ⟨1, 3, 3, [⟨[⟨1, 2, 5⟩, ⟨2, 3, 4⟩], 3⟩]⟩]) ⟨1, 2, 5⟩ 0 =
      sumaTraficoEn
        [⟨1, 2, 2, [⟨[⟨1, 2, 5⟩], 2⟩]⟩, ⟨1, 3, 3, [⟨[⟨1, 2, 5⟩, ⟨2, 3, 4⟩], 3⟩]⟩] ⟨1, 2, 5⟩ ∧
    sumaTraficoEn
      [⟨1, 2, 2, [⟨[⟨1, 2, 5⟩], 2⟩]⟩, ⟨1, 3, 3, [⟨[⟨1, 2, 5⟩, ⟨2, 3, 4⟩], 3⟩]⟩] ⟨1, 2, 5⟩ = 5 :=
  ⟨by simp, claimC6 _ _ (by simp), by rfl⟩

/-! ## C9: nonnegativity of every traffic value -/

theorem calculo_nonneg (i : Nat) (x H d dk v : Rat)
    (h : calculo_del_trafico_para_la_siguiente_iteracion i x H d dk = .ok v) :
    0 ≤ v := by
  unfold calculo_del_trafico_para_la_siguiente_iteracion at h
  by_cases hH : (H == 0) = true
  · rw [if_pos hH] at h
    exact absurd h (by simp)
  · rw [if_neg hH] at h
    simp only [Except.ok.injEq] at h
    rw [← h]
    exact le_max_left _ _

theorem pasoNoRef_nonneg (i : Nat) (flujoPrev : List (Enlace × Rat)) (dk : Rat) (pmin : Nat) :
    ∀ (entries : List (Nat × Rat)) (paths : List Path) (s0 : Rat)
      (paths2 : List Path) (s2 : Rat),
    (∀ p ∈ paths, 0 ≤ p.trafico) →
    pasoNoRef i flujoPrev dk pmin entries (paths, s0) = .ok (paths2, s2) →
    ∀ p ∈ paths2, 0 ≤ p.trafico := by
  intro entries
  induction entries with
  | nil =>
    intro paths s0 paths2 s2 hp h
    unfold pasoNoRef at h
    simp only [Except.ok.injEq, Prod.mk.injEq] at h
    rw [← h.1]
    exact hp
  | cons en rest ih =>
    intro paths s0 paths2 s2 hp h
    obtain ⟨pid, coste⟩ := en
    unfold pasoNoRef at h
    by_cases hpm : (pid == pmin) = true
    · rw [if_pos hpm] at h
      exact ih paths s0 paths2 s2 hp h
    · rw [if_neg hpm] at h
      cases hpa : paths[pid - 1]? with
      | none => rw [hpa] at h; exact absurd h (by simp)
      | some pa =>
        rw [hpa] at h
        cases hpmref : paths[pmin - 1]? with
        | none => rw [hpmref] at h; exact absurd h (by simp)
        | some pm =>
          rw [hpmref] at h
          dsimp only at h
          cases hcal : calculo_del_trafico_para_la_siguiente_iteracion i pa.trafico
              (calcular_H_kp pa pm flujoPrev) coste dk with
          | error e => rw [hcal] at h; exact absurd h (by simp)
          | ok v =>
            rw [hcal] at h
            refine ih _ _ paths2 s2 ?_ h
            intro p hpmem
            rcases List.mem_or_eq_of_mem_set hpmem with hold | hnew
            · exact hp p hold
            · rw [hnew]
              exact calculo_nonneg _ _ _ _ _ _ hcal

theorem pasoCommodity_nonneg (i : Nat) (costesPrev : List ((Commodity × Nat) × Rat))
    (flujoPrev : List (Enlace × Rat)) (c c2 : Commodity)
    (hp : ∀ p ∈ c.paths, 0 ≤ p.trafico)
    (h : pasoCommodity i costesPrev flujoPrev c = .ok c2) :
    c2.requirement = c.requirement ∧ (∀ p ∈ c2.paths, 0 ≤ p.trafico) := by
  unfold pasoCommodity at h
  cases hext : extraerCostesCommodity costesPrev c with
  | nil =>
    rw [hext] at h
    simp only [Except.ok.injEq] at h
    rw [← h]
    exact ⟨rfl, hp⟩
  | cons kv rest =>
    rw [hext] at h
    dsimp only at h
    cases hnr : pasoNoRef i flujoPrev (pyMinFold kv rest).2 (pyMinFold kv rest).1
        (kv :: rest) (c.paths, 0) with
    | error e => rw [hnr] at h; exact absurd h (by simp)
    | ok pr =>
      rw [hnr] at h
      obtain ⟨paths1, suma⟩ := pr
      dsimp only at h
      cases hpref : paths1[(pyMinFold kv rest).1 - 1]? with
      | none => rw [hpref] at h; exact absurd h (by simp)
      | some pref =>
        rw [hpref] at h
        dsimp only at h
        simp only [Except.ok.injEq] at h
        rw [← h]
        refine ⟨rfl, ?_⟩
        intro p hpmem
        rcases List.mem_or_eq_of_mem_set hpmem with hold | hnew
        · exact pasoNoRef_nonneg i flujoPrev _ _ _ _ _ _ _ hp hnr p hold
        · rw [hnew]
          exact le_max_left _ _

theorem actualizar_inv (i : Nat) (costesPrev : List ((Commodity × Nat) × Rat))
    (flujoPrev : List (Enlace × Rat)) :
    ∀ (cs cs2 : List Commodity),
    (∀ c ∈ cs, ∀ p ∈ c.paths, 0 ≤ p.trafico) →
    actualizarCommodities i costesPrev flujoPrev cs = .ok cs2 →
    ∀ c2 ∈ cs2, ∀ p ∈ c2.paths, 0 ≤ p.trafico := by
  intro cs
  induction cs with
  | nil =>
    intro cs2 h hok
    unfold actualizarCommodities at hok
    simp only [Except.ok.injEq] at hok
    rw [← hok]
    simp
  | cons c rest ih =>
    intro cs2 h hok
    unfold actualizarCommodities at hok
    cases hc : pasoCommodity i costesPrev flujoPrev c with
    | error e => rw [hc] at hok; exact absurd hok (by simp)
    | ok c2 =>
      rw [hc] at hok
      cases hr : actualizarCommodities i costesPrev flujoPrev rest with
      | error e => rw [hr] at hok; exact absurd hok (by simp)
      | ok rest2 =>
        rw [hr] at hok
        simp only [Except.ok.injEq] at hok
        rw [← hok]
        intro c3 hc3
        rcases List.mem_cons.mp hc3 with rfl | hmem
        · exact (pasoCommodity_nonneg i costesPrev flujoPrev c c3
            (h c (List.mem_cons_self _ _)) hc).2
        · exact ih rest2 (fun c4 hc4 => h c4 (List.mem_cons_of_mem _ hc4)) hr c3 hmem

theorem inicializar_inv :
    ∀ (cs cs2 : List Commodity), (∀ c ∈ cs, 0 ≤ c.requirement) →
    inicializarCommodities cs = .ok cs2 →
    ∀ c2 ∈ cs2, ∀ p ∈ c2.paths, 0 ≤ p.trafico := by
  intro cs
  induction cs with
  | nil =>
    intro cs2 h hok
    unfold inicializarCommodities at hok
    simp only [Except.ok.injEq] at hok
    rw [← hok]
    simp
  | cons c rest ih =>
    intro cs2 h hok
    unfold inicializarCommodities at hok
    cases hc : distribuir_trafico_uniforme c with
    | error e => rw [hc] at hok; exact absurd hok (by simp)
    | ok c2 =>
      rw [hc] at hok
      cases hr : inicializarCommodities rest with
      | error e => rw [hr] at hok; exact absurd hok (by simp)
      | ok rest2 =>
        rw [hr] at hok
        simp only [Except.ok.injEq] at hok
        rw [← hok]
        intro c3 hc3
        rcases List.mem_cons.mp hc3 with rfl | hmem
        · unfold distribuir_trafico_uniforme at hc
          by_cases hl : (c.paths.length == 0) = true
          · rw [if_pos hl] at hc; exact absurd hc (by simp)
          · rw [if_neg hl] at hc
            simp only [Except.ok.injEq] at hc
            rw [← hc]
            intro p hpmem
            obtain ⟨q, -, rfl⟩ := List.mem_map.mp hpmem
            exact div_nonneg (h c (List.mem_cons_self _ _)) (Nat.cast_nonneg _)
        · exact ih rest2 (fun c4 hc4 => h c4 (List.mem_cons_of_mem _ hc4)) hr c3 hmem

theorem correr_inv : ∀ (n i : Nat) (cs : List Commodity) (acc : Iteraciones)
    (res : List Commodity × Iteraciones), i ≠ 0 →
    (∀ c ∈ cs, ∀ p ∈ c.paths, 0 ≤ p.trafico) →
    correr n i cs acc = .ok res →
    ∀ c2 ∈ res.1, ∀ p ∈ c2.paths, 0 ≤ p.trafico := by
  intro n
  induction n with
  | zero =>
    intro i cs acc res _ h hok
    unfold correr at hok
    simp only [Except.ok.injEq] at hok
    rw [← hok]
    exact h
  | succ m ih =>
    intro i cs acc res hi h hok
    unfold correr at hok
    cases hp : pasoIteracion i cs acc with
    | error e => rw [hp] at hok; exact absurd hok (by simp)
    | ok p =>
      rw [hp] at hok
      refine ih (i + 1) p.1 p.2 res (by omega) ?_ hok
      unfold pasoIteracion at hp
      rw [if_neg (by simpa using hi)] at hp
      cases ha : actualizarCommodities i (acc.costes_path.getLastD [])
          (acc.flujo_total.getLastD []) cs with
      | error e => rw [ha] at hp; exact absurd hp (by simp)
      | ok cs2 =>
        rw [ha] at hp
        simp only [Except.ok.injEq] at hp
        rw [← hp]
        exact actualizar_inv i _ _ cs cs2 h ha

/-- C9: for commodities with nonnegative requirements and at least one
path each, every path's traffic is nonnegative after initialization
(`n = 1`) and after every later iteration: the uniform split is
nonnegative, the gradient update is floored at zero, and the reference
residual is floored at zero. -/
theorem claimC9 (cs : List Commodity) (n : Nat)
    (h : ∀ c ∈ cs, 0 ≤ c.requirement ∧ c.paths ≠ []) (hn : 1 ≤ n) :
    match estadoTras cs n with
    | .ok cs2 => ∀ c2 ∈ cs2, ∀ p ∈ c2.paths, 0 ≤ p.trafico
    | .error _ => True := by
  obtain ⟨m, rfl⟩ : ∃ m, n = m + 1 := ⟨n - 1, by omega⟩
  cases hres : estadoTras cs (m + 1) with
  | error e => trivial
  | ok cs2 =>
    unfold estadoTras at hres
    cases hcor : correr (m + 1) 0 cs ⟨[], [], []⟩ with
    | error e => rw [hcor] at hres; exact absurd hres (by simp [Except.map])
    | ok res =>
      rw [hcor] at hres
      simp only [Except.map, Except.ok.injEq] at hres
      unfold correr at hcor
      cases hp : pasoIteracion 0 cs ⟨[], [], []⟩ with
      | error e => rw [hp] at hcor; exact absurd hcor (by simp)
      | ok p =>
        rw [hp] at hcor
        have hinv1 : ∀ c2 ∈ p.1, ∀ q ∈ c2.paths, 0 ≤ q.trafico := by
          unfold pasoIteracion at hp
          rw [if_pos (by simp)] at hp
          cases hini : inicializarCommodities cs with
          | error e => rw [hini] at hp; exact absurd hp (by simp)
          | ok cs1 =>
            rw [hini] at hp
            simp only [Except.ok.injEq] at hp
            rw [← hp]
            exact inicializar_inv cs cs1 (fun c hc => (h c hc).1) hini
        have := correr_inv m 1 p.1 p.2 res (by omega) hinv1 hcor
        rw [← hres]
        exact this

theorem claimC9_witness :
    (∀ c ∈ [(⟨1, 2, 4, [⟨[⟨1, 2, 5⟩], 0⟩]⟩ : Commodity)],
      0 ≤ c.requirement ∧ c.paths ≠ []) ∧
    (match estadoTras [(⟨1, 2, 4, [⟨[⟨1, 2, 5⟩], 0⟩]⟩ : Commodity)] 1 with
    | .ok cs2 => ∀ c2 ∈ cs2, ∀ p ∈ c2.paths, 0 ≤ p.trafico
    | .error _ => True) :=
  ⟨by simp, claimC9 _ 1 (by simp) (by omega)⟩

/-! ## C3/C4: characterization of one commodity's update -/

theorem pasoNoRef_spec (i : Nat) (flujoPrev : List (Enlace × Rat)) (dk : Rat) (pmin : Nat)
    (hpmin : 1 ≤ pmin) :
    ∀ (entries : List (Nat × Rat)) (paths : List Path) (s0 : Rat)
      (paths2 : List Path) (s2 : Rat),
    pmin ≤ paths.length →
    (entries.map Prod.fst).Nodup →
    (∀ en ∈ entries, 1 ≤ en.1 ∧ en.1 ≤ paths.length) →
    pasoNoRef i flujoPrev dk pmin entries (paths, s0) = .ok (paths2, s2) →
    paths2.length = paths.length ∧
    (∀ j : Nat, ((j + 1) ∉ entries.map Prod.fst ∨ j + 1 = pmin) →
      paths2[j]? = paths[j]?) ∧
    (∀ en ∈ entries, en.1 ≠ pmin →
      ∃ pa pm v, paths[en.1 - 1]? = some pa ∧ paths[pmin - 1]? = some pm ∧
        calculo_del_trafico_para_la_siguiente_iteracion i pa.trafico
          (calcular_H_kp pa pm flujoPrev) en.2 dk = .ok v ∧
        paths2[en.1 - 1]? = some { pa with trafico := v }) ∧
    s2 = s0 + ((entries.filter (fun en => decide (en.1 ≠ pmin))).map
        (fun en => (paths2[en.1 - 1]?.getD ⟨[], 0⟩).trafico)).sum := by
  intro entries
  induction entries with
  | nil =>
    intro paths s0 paths2 s2 hle hnd hrange h
    unfold pasoNoRef at h
    simp only [Except.ok.injEq, Prod.mk.injEq] at h
    obtain ⟨h1, h2⟩ := h
    subst h1
    subst h2
    refine ⟨rfl, fun j _ => rfl, by simp, by simp⟩
  | cons en0 rest ih =>
    intro paths s0 paths2 s2 hle hnd hrange h
    obtain ⟨pid, coste⟩ := en0
    rw [List.map_cons, List.nodup_cons] at hnd
    unfold pasoNoRef at h
    by_cases hpm : (pid == pmin) = true
    · rw [if_pos hpm] at h
      have hpideq : pid = pmin := by simpa using hpm
      obtain ⟨ha, hb, hc, hd⟩ := ih paths s0 paths2 s2 hle hnd.2
        (fun en hen => hrange en (List.mem_cons_of_mem _ hen)) h
      refine ⟨ha, ?_, ?_, ?_⟩
      · intro j hj
        refine hb j ?_
        rcases hj with hj | hj
        · exact Or.inl (fun hm => hj (List.mem_cons_of_mem _ hm))
        · exact Or.inr hj
      · intro en hen hneq
        rcases List.mem_cons.mp hen with rfl | hmem
        · exact absurd hpideq hneq
        · exact hc en hmem hneq
      · rw [hd, List.filter_cons, if_neg (by simp [hpideq])]
    · rw [if_neg hpm] at h
      have hne_pid : pid ≠ pmin := by simpa using hpm
      obtain ⟨h1pid, hpidle⟩ := hrange (pid, coste) (List.mem_cons_self _ _)
      have hpidlt : pid - 1 < paths.length := by omega
      have hpminlt : pmin - 1 < paths.length := by omega
      obtain ⟨pa, hpa⟩ : ∃ pa, paths[pid - 1]? = some pa :=
        ⟨_, List.getElem?_eq_getElem hpidlt⟩
      obtain ⟨pm, hpmref⟩ : ∃ pm, paths[pmin - 1]? = some pm :=
        ⟨_, List.getElem?_eq_getElem hpminlt⟩
      rw [hpa] at h
      rw [hpmref] at h
      dsimp only at h
      cases hcal : calculo_del_trafico_para_la_siguiente_iteracion i pa.trafico
          (calcular_H_kp pa pm flujoPrev) coste dk with
      | error e => rw [hcal] at h; exact absurd h (by simp)
      | ok v =>
        rw [hcal] at h
        have hlen2 : (paths.set (pid - 1) { pa with trafico := v }).length = paths.length :=
          List.length_set _ _ _
        obtain ⟨ha, hb, hc, hd⟩ := ih (paths.set (pid - 1) { pa with trafico := v })
          (s0 + v) paths2 s2 (by omega) hnd.2
          (fun en hen => by
            have := hrange en (List.mem_cons_of_mem _ hen)
            omega) h
      -- in the `set` list, positions other than `pid - 1` read the original
        have hbase : ∀ j : Nat, j ≠ pid - 1 →
            (paths.set (pid - 1) { pa with trafico := v })[j]? = paths[j]? :=
          fun j hj => List.getElem?_set_ne (fun hx => hj hx.symm)
        have hpid_sub : pid - 1 + 1 = pid := Nat.sub_add_cancel h1pid
        have huntouched_pid : paths2[pid - 1]? = some { pa with trafico := v } := by
          rw [hb (pid - 1) (Or.inl (by rw [hpid_sub]; exact hnd.1))]
          rw [List.getElem?_set_self (by omega)]
        refine ⟨ha.trans hlen2, ?_, ?_, ?_⟩
        · intro j hj
          have hjne : j + 1 ≠ pid := by
            rcases hj with hj | hj
            · exact fun hx => hj (hx ▸ List.mem_cons_self _ _)
            · omega
          have : paths2[j]? = (paths.set (pid - 1) { pa with trafico := v })[j]? := by
            refine hb j ?_
            rcases hj with hj | hj
            · exact Or.inl (fun hm => hj (List.mem_cons_of_mem _ hm))
            · exact Or.inr hj
          rw [this, hbase j (by omega)]
        · intro en hen hneq
          rcases List.mem_cons.mp hen with rfl | hmem
          · exact ⟨pa, pm, v, hpa, hpmref, hcal, huntouched_pid⟩
          · have hen_ne_pid : en.1 ≠ pid := by
              intro hx
              have hmm : en.1 ∈ rest.map Prod.fst := List.mem_map.mpr ⟨en, hmem, rfl⟩
              rw [hx] at hmm
              exact hnd.1 hmm
            have hrange_en := hrange en (List.mem_cons_of_mem _ hmem)
            obtain ⟨pa2, pm2, v2, hpa2, hpm2, hcal2, hp2⟩ := hc en hmem hneq
            rw [hbase (en.1 - 1) (by omega)] at hpa2
            rw [hbase (pmin - 1) (by omega)] at hpm2
            exact ⟨pa2, pm2, v2, hpa2, hpm2, hcal2, hp2⟩
        · rw [hd, List.filter_cons, if_pos (by simpa using hne_pid)]
          simp only [List.map_cons, List.sum_cons, huntouched_pid]
          dsimp only [Option.getD]
          ring

theorem pyMinFold_eq_or_mem : ∀ (xs : List (Nat × Rat)) (best : Nat × Rat),
    pyMinFold best xs = best ∨ pyMinFold best xs ∈ xs := by
  intro xs
  induction xs with
  | nil => intro best; exact Or.inl rfl
  | cons x rest ih =>
    intro best
    unfold pyMinFold
    rcases ih (if x.2 < best.2 then x else best) with h | h
    · rw [h]
      by_cases hx : x.2 < best.2
      · rw [if_pos hx]
        exact Or.inr (List.mem_cons_self _ _)
      · rw [if_neg hx]
        exact Or.inl rfl
    · exact Or.inr (List.mem_cons_of_mem _ h)

theorem costesCanonicos_ids_nodup (n : Nat) (d : Nat → Rat) :
    ((costesCanonicos n d).map Prod.fst).Nodup := by
  have : (costesCanonicos n d).map Prod.fst = (List.range n).map (fun j => j + 1) := by
    simp [costesCanonicos, List.map_map, Function.comp]
  rw [this]
  exact List.Nodup.map (fun a b h => by omega) (List.nodup_range n)

theorem costesCanonicos_mem_bounds (n : Nat) (d : Nat → Rat) :
    ∀ en ∈ costesCanonicos n d, 1 ≤ en.1 ∧ en.1 ≤ n := by
  intro en hen
  obtain ⟨j, hj, rfl⟩ := List.mem_map.mp hen
  have := List.mem_range.mp hj
  exact ⟨by omega, by omega⟩

theorem costesCanonicos_mem_of (n : Nat) (d : Nat → Rat) (pid : Nat)
    (h1 : 1 ≤ pid) (h2 : pid ≤ n) : (pid, d pid) ∈ costesCanonicos n d := by
  refine List.mem_map.mpr ⟨pid - 1, List.mem_range.mpr (by omega), ?_⟩
  rw [Nat.sub_add_cancel h1]

theorem pasoCommodity_spec (i : Nat) (costesPrev : List ((Commodity × Nat) × Rat))
    (flujoPrev : List (Enlace × Rat)) (c c2 : Commodity) (d : Nat → Rat)
    (hpaths : c.paths ≠ [])
    (hext : extraerCostesCommodity costesPrev c = costesCanonicos c.paths.length d)
    (hok : pasoCommodity i costesPrev flujoPrev c = .ok c2) :
    ∃ pmin paths1 suma pref,
      pmin = pathMinimoId (extraerCostesCommodity costesPrev c) ∧
      1 ≤ pmin ∧ pmin ≤ c.paths.length ∧
      pasoNoRef i flujoPrev (d pmin) pmin (costesCanonicos c.paths.length d) (c.paths, 0) =
        .ok (paths1, suma) ∧
      paths1[pmin - 1]? = some pref ∧
      c2.paths = paths1.set (pmin - 1)
        { pref with trafico := max 0 (c.requirement - suma) } ∧
      c2.requirement = c.requirement := by
  unfold pasoCommodity at hok
  rw [hext] at hok
  cases hcan : costesCanonicos c.paths.length d with
  | nil =>
    exfalso
    have hlen : c.paths.length = 0 := by
      have := congrArg List.length hcan
      simpa [costesCanonicos] using this
    exact hpaths (List.eq_nil_of_length_eq_zero hlen)
  | cons kv rest =>
    rw [hcan] at hok
    dsimp only at hok
    have hmem : pyMinFold kv rest ∈ costesCanonicos c.paths.length d := by
      rw [hcan]
      rcases pyMinFold_eq_or_mem rest kv with h | h
      · rw [h]; exact List.mem_cons_self _ _
      · exact List.mem_cons_of_mem _ h
    obtain ⟨j, hj, heq⟩ := List.mem_map.mp hmem
    have hjr := List.mem_range.mp hj
    have hfst : (pyMinFold kv rest).1 = j + 1 := by rw [← heq]
    have hsnd : (pyMinFold kv rest).2 = d ((pyMinFold kv rest).1) := by
      rw [← heq]
    cases hnr : pasoNoRef i flujoPrev (pyMinFold kv rest).2 (pyMinFold kv rest).1
        (kv :: rest) (c.paths, 0) with
    | error e => rw [hnr] at hok; exact absurd hok (by simp)
    | ok pr =>
      rw [hnr] at hok
      obtain ⟨paths1, suma⟩ := pr
      dsimp only at hok
      cases hpref : paths1[(pyMinFold kv rest).1 - 1]? with
      | none => rw [hpref] at hok; exact absurd hok (by simp)
      | some pref =>
        rw [hpref] at hok
        dsimp only at hok
        simp only [Except.ok.injEq] at hok
        refine ⟨(pyMinFold kv rest).1, paths1, suma, pref, ?_, ?_, ?_, ?_, hpref, ?_, ?_⟩
        · rw [hext, hcan]
          rfl
        · omega
        · omega
        · rw [← hsnd]
          exact hnr
        · rw [← hok]
        · rw [← hok]

/-- C3: at any update iteration, for a commodity with at least one path
whose previous-iteration cost dict has the canonical in-run shape
(ordinals `1..n` with costs `d`), a successful update sets the reference
(minimum-previous-cost) path's traffic to
`max 0 (requirement - Σ(updated non-reference traffics))` — the residual,
not the gradient rule — so total assigned traffic tracks the requirement
by construction. -/
theorem claimC3 (i : Nat) (costesPrev : List ((Commodity × Nat) × Rat))
    (flujoPrev : List (Enlace × Rat)) (c c2 : Commodity) (d : Nat → Rat)
    (hpaths : c.paths ≠ [])
    (hext : extraerCostesCommodity costesPrev c = costesCanonicos c.paths.length d)
    (hok : pasoCommodity i costesPrev flujoPrev c = .ok c2) :
    ∃ pref : Path,
      c2.paths[pathMinimoId (extraerCostesCommodity costesPrev c) - 1]? = some pref ∧
      pref.trafico = max 0 (c.requirement -
        sumaOtros c2.paths (pathMinimoId (extraerCostesCommodity costesPrev c) - 1)) := by
  obtain ⟨pmin, paths1, suma, pref, hpmin_eq, h1, h2, hnr, hpref, hc2paths, hreq⟩ :=
    pasoCommodity_spec i costesPrev flujoPrev c c2 d hpaths hext hok
  rw [← hpmin_eq]
  obtain ⟨ha, hb, hc, hd⟩ := pasoNoRef_spec i flujoPrev (d pmin) pmin h1
    (costesCanonicos c.paths.length d) c.paths 0 paths1 suma h2
    (costesCanonicos_ids_nodup _ _) (costesCanonicos_mem_bounds _ _) hnr
  have hlen_c2 : c2.paths.length = c.paths.length := by
    rw [hc2paths]
    rw [List.length_set]
    exact ha
  have hget : c2.paths[pmin - 1]? =
      some { pref with trafico := max 0 (c.requirement - suma) } := by
    rw [hc2paths]
    exact List.getElem?_set_self (by omega)
  refine ⟨_, hget, ?_⟩
  have hpos : ∀ j, j ≠ pmin - 1 → c2.paths[j]? = paths1[j]? := by
    intro j hj
    rw [hc2paths]
    exact List.getElem?_set_ne (fun hx => hj hx.symm)
  have hsum : sumaOtros c2.paths (pmin - 1) = suma := by
    unfold sumaOtros
    rw [hlen_c2, hd]
    rw [show (costesCanonicos c.paths.length d).filter (fun en => decide (en.1 ≠ pmin)) =
        ((List.range c.paths.length).filter (fun j => decide (j + 1 ≠ pmin))).map
          (fun j => (j + 1, d (j + 1))) from by
      unfold costesCanonicos
      rw [List.filter_map]
      rfl]
    rw [List.map_map]
    rw [show ((List.range c.paths.length).filter (fun j => decide (j + 1 ≠ pmin))) =
        ((List.range c.paths.length).filter (fun j => decide (j ≠ pmin - 1))) from
      List.filter_congr (fun j _ => decide_eq_decide.mpr (by omega))]
    rw [zero_add]
    refine congrArg List.sum ?_
    refine List.map_congr_left ?_
    intro j hj
    have hjne : j ≠ pmin - 1 := by
      have := List.mem_filter.mp hj
      simpa using this.2
    simp only [Function.comp]
    rw [Nat.add_sub_cancel]
    rw [hpos j hjne]
  rw [hsum]

/-- C4: at any update iteration, for every non-reference path ordinal
`pid` of a commodity whose previous cost dict has the canonical in-run
shape, a successful update gives the path the traffic
`max 0 (x_p - (0.001 / H_kp) * (d_kp - d_kbeta))`, where `H_kp`
(necessarily nonzero, else the run would have aborted) is
`calcular_H_kp`: the sum of `f_double_prima` over the value-based
symmetric difference of the two paths' link sets at the previous
iteration's flows. -/
theorem claimC4 (i : Nat) (costesPrev : List ((Commodity × Nat) × Rat))
    (flujoPrev : List (Enlace × Rat)) (c c2 : Commodity) (d : Nat → Rat) (pid : Nat)
    (hpaths : c.paths ≠ [])
    (hext : extraerCostesCommodity costesPrev c = costesCanonicos c.paths.length d)
    (hok : pasoCommodity i costesPrev flujoPrev c = .ok c2)
    (hpid1 : 1 ≤ pid) (hpidle : pid ≤ c.paths.length)
    (hne : pid ≠ pathMinimoId (extraerCostesCommodity costesPrev c)) :
    ∃ pa pm : Path, c.paths[pid - 1]? = some pa ∧
      c.paths[pathMinimoId (extraerCostesCommodity costesPrev c) - 1]? = some pm ∧
      calcular_H_kp pa pm flujoPrev ≠ 0 ∧
      c2.paths[pid - 1]? = some { pa with trafico := (max 0 (pa.trafico -
        (1/1000 / calcular_H_kp pa pm flujoPrev) *
          (d pid - d (pathMinimoId (extraerCostesCommodity costesPrev c))))) } := by
  obtain ⟨pmin, paths1, suma, pref, hpmin_eq, h1, h2, hnr, hpref, hc2paths, hreq⟩ :=
    pasoCommodity_spec i costesPrev flujoPrev c c2 d hpaths hext hok
  rw [← hpmin_eq]
  rw [← hpmin_eq] at hne
  obtain ⟨ha, hb, hc, hd⟩ := pasoNoRef_spec i flujoPrev (d pmin) pmin h1
    (costesCanonicos c.paths.length d) c.paths 0 paths1 suma h2
    (costesCanonicos_ids_nodup _ _) (costesCanonicos_mem_bounds _ _) hnr
  obtain ⟨pa, pm, v, hpa, hpm, hcal, hp2⟩ :=
    hc (pid, d pid) (costesCanonicos_mem_of _ _ _ hpid1 hpidle) hne
  unfold calculo_del_trafico_para_la_siguiente_iteracion at hcal
  by_cases hH : (calcular_H_kp pa pm flujoPrev == 0) = true
  · rw [if_pos hH] at hcal
    exact absurd hcal (by simp)
  · rw [if_neg hH] at hcal
    simp only [Except.ok.injEq] at hcal
    refine ⟨pa, pm, hpa, hpm, by simpa using hH, ?_⟩
    have hgetc2 : c2.paths[pid - 1]? = paths1[pid - 1]? := by
      rw [hc2paths]
      exact List.getElem?_set_ne (by omega)
    rw [hgetc2, hp2, ← hcal]

theorem claimC3_witness :
    (commodityW.paths ≠ [] ∧
      extraerCostesCommodity costesW commodityW =
        costesCanonicos commodityW.paths.length dW ∧
      pasoCommodity 1 costesW flujoW commodityW = .ok commodityW2) ∧
    (∃ pref : Path,
      commodityW2.paths[pathMinimoId (extraerCostesCommodity costesW commodityW) - 1]? =
        some pref ∧
      pref.trafico = max 0 (commodityW.requirement -
        sumaOtros commodityW2.paths
          (pathMinimoId (extraerCostesCommodity costesW commodityW) - 1))) :=
  ⟨⟨by decide, rfl, rfl⟩,
   claimC3 1 costesW flujoW commodityW commodityW2 dW (by decide) rfl rfl⟩

theorem claimC4_witness :
    (commodityW.paths ≠ [] ∧
      extraerCostesCommodity costesW commodityW =
        costesCanonicos commodityW.paths.length dW ∧
      pasoCommodity 1 costesW flujoW commodityW = .ok commodityW2 ∧
      1 ≤ 2 ∧ 2 ≤ commodityW.paths.length ∧
      2 ≠ pathMinimoId (extraerCostesCommodity costesW commodityW)) ∧
    (∃ pa pm : Path, commodityW.paths[2 - 1]? = some pa ∧
      commodityW.paths[pathMinimoId (extraerCostesCommodity costesW commodityW) - 1]? =
        some pm ∧
      calcular_H_kp pa pm flujoW ≠ 0 ∧
      commodityW2.paths[2 - 1]? = some { pa with trafico := (max 0 (pa.trafico -
        (1/1000 / calcular_H_kp pa pm flujoW) *
          (dW 2 - dW (pathMinimoId (extraerCostesCommodity costesW commodityW))))) }) :=
  ⟨⟨by decide, rfl, rfl, by omega, by decide, by decide⟩,
   claimC4 1 costesW flujoW commodityW commodityW2 dW 2 (by decide) rfl rfl
     (by omega) (by decide) (by decide)⟩

/-! ## C10: commodities merged by value equality -/

theorem commodityEq_iff (a b : Commodity) :
    (a == b) = true ↔
      a.source = b.source ∧ a.target = b.target ∧ a.requirement = b.requirement := by
  show commodityEq a b = true ↔ _
  unfold commodityEq
  simp [Bool.and_eq_true, and_assoc]

theorem beq_comm_congr (A B x : Commodity) (hAB : (A == B) = true) :
    (x == A) = (x == B) := by
  obtain ⟨h1, h2, h3⟩ := (commodityEq_iff A B).mp hAB
  show commodityEq x A = commodityEq x B
  unfold commodityEq
  rw [h1, h2, h3]

theorem commodityEq_refl (a : Commodity) : (a == a) = true :=
  (commodityEq_iff a a).mpr ⟨rfl, rfl, rfl⟩

theorem extraer_congr (costes : List ((Commodity × Nat) × Rat)) (A B : Commodity)
    (hAB : (A == B) = true) :
    extraerCostesCommodity costes A = extraerCostesCommodity costes B := by
  unfold extraerCostesCommodity
  suffices h : ∀ acc : List (Nat × Rat),
      costes.foldl (fun pc kv => if kv.1.1 == A then pyUpsert pc kv.1.2 kv.2 else pc) acc =
      costes.foldl (fun pc kv => if kv.1.1 == B then pyUpsert pc kv.1.2 kv.2 else pc) acc from
    h []
  intro acc
  induction costes generalizing acc with
  | nil => rfl
  | cons kv rest ih =>
    simp only [List.foldl_cons]
    rw [beq_comm_congr A B kv.1.1 hAB]
    exact ih _

/-- Reverse-find characterization of a left fold of `pyUpsert`s: the
last write to a key wins, earlier dict entries survive otherwise. -/
theorem pyLookup_foldl_upsert [BEq κ]
    (hsymm : ∀ x y : κ, (x == y) = true → (y == x) = true)
    (htrans : ∀ x y z : κ, (x == y) = true → (y == z) = true → (x == z) = true)
    (f : α → κ) (g : α → β) :
    ∀ (l : List α) (d0 : List (κ × β)) (k : κ),
    pyLookup (l.foldl (fun d x => pyUpsert d (f x) (g x)) d0) k =
      match l.reverse.find? (fun x => f x == k) with
      | some x => some (g x)
      | none => pyLookup d0 k := by
  intro l
  induction l with
  | nil => intro d0 k; rfl
  | cons x rest ih =>
    intro d0 k
    rw [List.foldl_cons, ih, List.reverse_cons, List.find?_append]
    cases hr : rest.reverse.find? (fun y => f y == k) with
    | some y => rfl
    | none =>
      rw [pyLookup_pyUpsert hsymm htrans]
      by_cases hx : (f x == k) = true
      · simp [List.find?, hx, Option.or]
      · simp [List.find?, hx, Option.or]

theorem enumFrom_fst_le {α : Type} :
    ∀ (l : List α) (n : Nat) (x : Nat × α), x ∈ l.enumFrom n → n ≤ x.1 := by
  intro l
  induction l with
  | nil => intro n x hx; simp at hx
  | cons a rest ih =>
    intro n x hx
    rw [List.enumFrom_cons] at hx
    rcases List.mem_cons.mp hx with rfl | hmem
    · exact le_refl _
    · have := ih (n + 1) x hmem
      omega

theorem enumFrom_reverse_find {α : Type} (j : Nat) :
    ∀ (l : List α) (s : Nat), s ≤ j → j < s + l.length →
    ∃ x, l[j - s]? = some x ∧
      (l.enumFrom s).reverse.find? (fun pi => pi.1 == j) = some (j, x) := by
  intro l
  induction l with
  | nil => intro s h1 h2; simp at h2; omega
  | cons a rest ih =>
    intro s h1 h2
    rw [List.enumFrom_cons, List.reverse_cons, List.find?_append]
    by_cases hj : j = s
    · subst hj
      have hnone : (rest.enumFrom (j + 1)).reverse.find? (fun pi => pi.1 == j) = none := by
        rw [List.find?_eq_none]
        intro x hx
        have hle := enumFrom_fst_le rest (j + 1) x (List.mem_reverse.mp hx)
        simp only [beq_iff_eq]
        omega
      rw [hnone]
      refine ⟨a, by simp, ?_⟩
      simp [List.find?, Option.or]
    · obtain ⟨x, hx, hfind⟩ := ih (s + 1) (by omega) (by
        simp only [List.length_cons] at h2
        omega)
      rw [hfind]
      refine ⟨x, ?_, rfl⟩
      rw [show j - s = (j - (s + 1)) + 1 from by omega, List.getElem?_cons_succ]
      exact hx

theorem commodityEq_symm (a b : Commodity) (h : (a == b) = true) : (b == a) = true := by
  obtain ⟨h1, h2, h3⟩ := (commodityEq_iff a b).mp h
  exact (commodityEq_iff b a).mpr ⟨h1.symm, h2.symm, h3.symm⟩

theorem commodityEq_trans (a b c : Commodity) (hab : (a == b) = true)
    (hbc : (b == c) = true) : (a == c) = true := by
  obtain ⟨h1, h2, h3⟩ := (commodityEq_iff a b).mp hab
  obtain ⟨g1, g2, g3⟩ := (commodityEq_iff b c).mp hbc
  exact (commodityEq_iff a c).mpr ⟨h1.trans g1, h2.trans g2, h3.trans g3⟩

theorem prodKeyEq (x y : Commodity × Nat) : (x == y) = (x.1 == y.1 && x.2 == y.2) := rfl

theorem prodKey_symm (x y : Commodity × Nat) (h : (x == y) = true) : (y == x) = true := by
  rw [prodKeyEq] at h ⊢
  rw [Bool.and_eq_true] at h ⊢
  exact ⟨commodityEq_symm _ _ h.1, by
    have := h.2
    simp only [beq_iff_eq] at this ⊢
    omega⟩

theorem prodKey_trans (x y z : Commodity × Nat) (hxy : (x == y) = true)
    (hyz : (y == z) = true) : (x == z) = true := by
  rw [prodKeyEq] at hxy hyz ⊢
  rw [Bool.and_eq_true] at hxy hyz ⊢
  refine ⟨commodityEq_trans _ _ _ hxy.1 hyz.1, ?_⟩
  have h1 := hxy.2
  have h2 := hyz.2
  simp only [beq_iff_eq] at h1 h2 ⊢
  omega

/-- C10: two distinct `Commodity` objects that are equal by the Python
value triple `(source, target, requirement)` collide in every dict the
engine keys by commodity.  In the per-(commodity, ordinal) cost map of
`[A, B]`, the entry looked up under `(A, i)` holds the **later**
commodity's cost (B's `i`-th path cost — the overwrite), and the
reference-path selection produces a single entry serving both (lookups
under `A` and `B` agree, and the dict has at most one entry). -/
theorem claimC10 (A B : Commodity) (flujo : List (Enlace × Rat))
    (costes : List ((Commodity × Nat) × Rat)) (i : Nat)
    (hAB : (A == B) = true) (hi1 : 1 ≤ i) (hile : i ≤ B.paths.length) :
    (∃ pB, B.paths[i - 1]? = some pB ∧
      pyLookup (calcular_coste_total_por_path [A, B] flujo) (A, i) =
        some (coste_de_path flujo pB)) ∧
    pyLookup (seleccionar_path_minimo_coste [A, B] costes) A =
      pyLookup (seleccionar_path_minimo_coste [A, B] costes) B ∧
    (seleccionar_path_minimo_coste [A, B] costes).length ≤ 1 := by
  have hBA : (B == A) = true := commodityEq_symm _ _ hAB
  refine ⟨?_, ?_⟩
  · unfold calcular_coste_total_por_path
    simp only [List.foldl_cons, List.foldl_nil]
    rw [pyLookup_foldl_upsert prodKey_symm prodKey_trans
      (fun pi : Nat × Path => ((B : Commodity), pi.1))
      (fun pi : Nat × Path => coste_de_path flujo pi.2)]
    have hpred : (fun pi : Nat × Path => (((B : Commodity), pi.1) == (A, i))) =
        (fun pi : Nat × Path => pi.1 == i) := by
      funext pi
      rw [prodKeyEq]
      simp only [hBA, Bool.true_and]
    rw [hpred]
    obtain ⟨pB, hpB, hfind⟩ := enumFrom_reverse_find i B.paths 1 hi1 (by omega)
    rw [hfind]
    exact ⟨pB, hpB, rfl⟩
  · unfold seleccionar_path_minimo_coste
    simp only [List.foldl_cons, List.foldl_nil]
    rw [← extraer_congr costes A B hAB]
    cases hpc : extraerCostesCommodity costes A with
    | nil => exact ⟨rfl, by simp⟩
    | cons kv rest =>
      dsimp only
      rw [show pyUpsert ([] : List (Commodity × Nat)) A (pyMinFold kv rest).1 =
        [(A, (pyMinFold kv rest).1)] from rfl]
      rw [show pyUpsert [(A, (pyMinFold kv rest).1)] B (pyMinFold kv rest).1 =
        [(A, (pyMinFold kv rest).1)] from by
          unfold pyUpsert
          rw [if_pos hAB]]
      refine ⟨?_, by simp⟩
      show (if (A == A) = true then _ else _) = (if (A == B) = true then _ else _)
      rw [if_pos (commodityEq_refl A), if_pos hAB]

theorem claimC10_witness :
    ((((⟨1, 2, 7, [⟨[⟨1, 2, 5⟩], 1⟩]⟩ : Commodity)) ==
        (⟨1, 2, 7, [⟨[⟨1, 2, 3⟩], 2⟩, ⟨[⟨2, 3, 4⟩], 3⟩]⟩ : Commodity)) = true ∧
      1 ≤ 1 ∧ 1 ≤ (⟨1, 2, 7, [⟨[⟨1, 2, 3⟩], 2⟩, ⟨[⟨2, 3, 4⟩], 3⟩]⟩ : Commodity).paths.length) ∧
    ((∃ pB, (⟨1, 2, 7, [⟨[⟨1, 2, 3⟩], 2⟩, ⟨[⟨2, 3, 4⟩], 3⟩]⟩ : Commodity).paths[1 - 1]? =
        some pB ∧
      pyLookup (calcular_coste_total_por_path
          [⟨1, 2, 7, [⟨[⟨1, 2, 5⟩], 1⟩]⟩, ⟨1, 2, 7, [⟨[⟨1, 2, 3⟩], 2⟩, ⟨[⟨2, 3, 4⟩], 3⟩]⟩] [])
        (⟨1, 2, 7, [⟨[⟨1, 2, 5⟩], 1⟩]⟩, 1) = some (coste_de_path [] pB)) ∧
    pyLookup (seleccionar_path_minimo_coste
        [⟨1, 2, 7, [⟨[⟨1, 2, 5⟩], 1⟩]⟩, ⟨1, 2, 7, [⟨[⟨1, 2, 3⟩], 2⟩, ⟨[⟨2, 3, 4⟩], 3⟩]⟩]
        [((⟨1, 2, 7, [⟨[⟨1, 2, 5⟩], 1⟩]⟩, 1), 2)])
      ⟨1, 2, 7, [⟨[⟨1, 2, 5⟩], 1⟩]⟩ =
      pyLookup (seleccionar_path_minimo_coste
        [⟨1, 2, 7, [⟨[⟨1, 2, 5⟩], 1⟩]⟩, ⟨1, 2, 7, [⟨[⟨1, 2, 3⟩], 2⟩, ⟨[⟨2, 3, 4⟩], 3⟩]⟩]
        [((⟨1, 2, 7, [⟨[⟨1, 2, 5⟩], 1⟩]⟩, 1), 2)])
      ⟨1, 2, 7, [⟨[⟨1, 2, 3⟩], 2⟩, ⟨[⟨2, 3, 4⟩], 3⟩]⟩ ∧
    (seleccionar_path_minimo_coste
        [⟨1, 2, 7, [⟨[⟨1, 2, 5⟩], 1⟩]⟩, ⟨1, 2, 7, [⟨[⟨1, 2, 3⟩], 2⟩, ⟨[⟨2, 3, 4⟩], 3⟩]⟩]
        [((⟨1, 2, 7, [⟨[⟨1, 2, 5⟩], 1⟩]⟩, 1), 2)]).length ≤ 1) :=
  ⟨⟨by decide, by omega, by decide⟩,
   claimC10 ⟨1, 2, 7, [⟨[⟨1, 2, 5⟩], 1⟩]⟩ ⟨1, 2, 7, [⟨[⟨1, 2, 3⟩], 2⟩, ⟨[⟨2, 3, 4⟩], 3⟩]⟩
     [] [((⟨1, 2, 7, [⟨[⟨1, 2, 5⟩], 1⟩]⟩, 1), 2)] 1 (by decide) (by omega) (by decide)⟩

/-! ## C2: path discovery -/

theorem pyLookup_append_lawful [DecidableEq κ] [BEq κ] [LawfulBEq κ]
    (d1 d2 : List (κ × β)) (k : κ) :
    pyLookup (d1 ++ d2) k = (pyLookup d1 k).or (pyLookup d2 k) := by
  induction d1 with
  | nil => simp [pyLookup]
  | cons kv rest ih =>
    by_cases h : (kv.1 == k) = true
    · simp [pyLookup, h, Option.or]
    · show pyLookup (kv :: (rest ++ d2)) k = _
      simp only [pyLookup, if_neg h]
      rw [ih]

theorem esCadena_append (e : Enlace) :
    ∀ (p : List Enlace) (s n : Int), esCadena s p n = true → e.source = n →
    esCadena s (p ++ [e]) e.target = true := by
  intro p
  induction p with
  | nil =>
    intro s n hc he
    simp only [esCadena, beq_iff_eq] at hc
    subst hc
    simp [esCadena, he.symm]
  | cons f rest ih =>
    intro s n hc he
    simp only [esCadena, Bool.and_eq_true] at hc
    simp only [List.cons_append, esCadena, Bool.and_eq_true]
    exact ⟨hc.1, ih f.target n hc.2 he⟩

theorem esCadena_nodes :
    ∀ (p : List Enlace) (s n : Int), esCadena s p n = true →
    p.map (fun e => e.source) ++ [n] = s :: p.map (fun e => e.target) := by
  intro p
  induction p with
  | nil =>
    intro s n hc
    simp only [esCadena, beq_iff_eq] at hc
    simp [hc]
  | cons e rest ih =>
    intro s n hc
    simp only [esCadena, Bool.and_eq_true, beq_iff_eq] at hc
    simp only [List.map_cons, List.cons_append, List.cons.injEq]
    exact ⟨hc.1.symm, ih e.target n hc.2⟩

theorem alcanzable_refl (enlaces : List Enlace) (s : Int) : Alcanzable enlaces s s :=
  ⟨[], by simp, by simp [esCadena]⟩

theorem alcanzable_step (enlaces : List Enlace) (s n : Int) (e : Enlace)
    (h : Alcanzable enlaces s n) (he : e ∈ enlaces) (hs : e.source = n) :
    Alcanzable enlaces s e.target := by
  obtain ⟨p, hmem, hc⟩ := h
  exact ⟨p ++ [e], fun x hx => by
    rcases List.mem_append.mp hx with hx | hx
    · exact hmem x hx
    · rw [List.mem_singleton.mp hx]; exact he,
    esCadena_append e p s n hc hs⟩

theorem construir_sound (enlaces : List Enlace) :
    ∀ n vs, pyLookup (construir_grafo_adyacencia enlaces) n = some vs →
    ∀ ve ∈ vs, ve.2 ∈ enlaces ∧ ve.2.source = n ∧ ve.2.target = ve.1 := by
  suffices h : ∀ (l : List Enlace) (g0 : List (Int × List (Int × Enlace))),
      (∀ n vs, pyLookup g0 n = some vs →
        ∀ ve ∈ vs, ve.2 ∈ enlaces ∧ ve.2.source = n ∧ ve.2.target = ve.1) →
      (∀ e ∈ l, e ∈ enlaces) →
      (∀ n vs, pyLookup (l.foldl (fun grafo e =>
          match pyLookup grafo e.source with
          | none => grafo ++ [(e.source, [(e.target, e)])]
          | some vecinos => pyUpsert grafo e.source (vecinos ++ [(e.target, e)])) g0) n = some vs →
        ∀ ve ∈ vs, ve.2 ∈ enlaces ∧ ve.2.source = n ∧ ve.2.target = ve.1) by
    intro n vs hvs
    exact h enlaces [] (by simp [pyLookup]) (fun e he => he) n vs hvs
  intro l
  induction l with
  | nil => intro g0 hg0 _ n vs hvs; exact hg0 n vs hvs
  | cons e rest ih =>
    intro g0 hg0 hsub n vs hvs
    rw [List.foldl_cons] at hvs
    refine ih _ ?_ (fun x hx => hsub x (List.mem_cons_of_mem _ hx)) n vs hvs
    intro m ws hws ve hve
    cases h0 : pyLookup g0 e.source with
    | none =>
      rw [h0] at hws
      rw [pyLookup_append_lawful] at hws
      cases h1 : pyLookup g0 m with
      | some ws0 =>
        rw [h1] at hws
        simp only [Option.or, Option.some.injEq] at hws
        subst hws
        exact hg0 m ws0 h1 ve hve
      | none =>
        rw [h1] at hws
        simp only [Option.or] at hws
        by_cases h2 : (e.source == m) = true
        · simp only [pyLookup, h2, if_pos, Option.some.injEq] at hws
          subst hws
          rcases List.mem_singleton.mp hve with rfl
          exact ⟨hsub e (List.mem_cons_self _ _), by simpa using h2, rfl⟩
        · simp [pyLookup, h2] at hws
    | some vecinos =>
      rw [h0] at hws
      rw [pyLookup_pyUpsert_lawful] at hws
      by_cases h2 : e.source = m
      · rw [if_pos h2] at hws
        simp only [Option.some.injEq] at hws
        subst hws
        rcases List.mem_append.mp hve with hv | hv
        · exact hg0 m vecinos (h2 ▸ h0) ve hv
        · rcases List.mem_singleton.mp hv with rfl
          exact ⟨hsub e (List.mem_cons_self _ _), h2, rfl⟩
      · rw [if_neg h2] at hws
        exact hg0 m ws hws ve hve

theorem bfsAux_sound (grafo : List (Int × List (Int × Enlace))) (target : Int)
    (enlaces : List Enlace) (s : Int)
    (hg : ∀ n vs, pyLookup grafo n = some vs →
      ∀ ve ∈ vs, ve.2 ∈ enlaces ∧ ve.2.source = n ∧ ve.2.target = ve.1) :
    ∀ (fuel : Nat) (queue dist : List (Int × Nat)),
    (∀ x ∈ queue, Alcanzable enlaces s x.1) →
    (∀ x ∈ dist, Alcanzable enlaces s x.1) →
    ∀ x ∈ bfsAux grafo target fuel queue dist, Alcanzable enlaces s x.1 := by
  intro fuel
  induction fuel with
  | zero => intro queue dist _ hdist x hx; exact hdist x hx
  | succ fuel ih =>
    intro queue dist hqueue hdist x hx
    match queue with
    | [] => exact hdist x (by simpa [bfsAux] using hx)
    | (nodo, d) :: rest =>
      unfold bfsAux at hx
      by_cases ht : (nodo == target) = true
      · rw [if_pos ht] at hx
        exact ih rest dist (fun y hy => hqueue y (List.mem_cons_of_mem _ hy)) hdist x hx
      · rw [if_neg ht] at hx
        cases hlk : pyLookup grafo nodo with
        | none =>
          rw [hlk] at hx
          exact ih rest dist (fun y hy => hqueue y (List.mem_cons_of_mem _ hy)) hdist x hx
        | some vecinos =>
          rw [hlk] at hx
          dsimp only at hx
          have hnodo : Alcanzable enlaces s nodo := hqueue (nodo, d) (List.mem_cons_self _ _)
          have hfold : ∀ qd : List (Int × Nat) × List (Int × Nat),
              ((∀ y ∈ qd.1, Alcanzable enlaces s y.1) ∧
               (∀ y ∈ qd.2, Alcanzable enlaces s y.1)) →
              (∀ y ∈ (vecinos.foldl
                (fun (qd : List (Int × Nat) × List (Int × Nat)) ve =>
                  if (pyLookup qd.2 ve.1).isSome then qd
                  else (qd.1 ++ [(ve.1, d + 1)], qd.2 ++ [(ve.1, d + 1)]))
                qd).1, Alcanzable enlaces s y.1) ∧
              (∀ y ∈ (vecinos.foldl
                (fun (qd : List (Int × Nat) × List (Int × Nat)) ve =>
                  if (pyLookup qd.2 ve.1).isSome then qd
                  else (qd.1 ++ [(ve.1, d + 1)], qd.2 ++ [(ve.1, d + 1)]))
                qd).2, Alcanzable enlaces s y.1) := by
            intro qd hqd
            refine foldl_inv (fun qd => (∀ y ∈ qd.1, Alcanzable enlaces s y.1) ∧
              (∀ y ∈ qd.2, Alcanzable enlaces s y.1)) _ vecinos ?_ qd hqd
            intro ve hve qd2 hqd2
            by_cases hin : (pyLookup qd2.2 ve.1).isSome
            · simpa [hin] using hqd2
            · simp only [hin, if_false]
              obtain ⟨heE, hesrc, hetgt⟩ := hg nodo vecinos hlk ve hve
              have hreach : Alcanzable enlaces s ve.1 := by
                rw [← hetgt]
                exact alcanzable_step enlaces s nodo ve.2 hnodo heE hesrc
              constructor
              · intro y hy
                rcases List.mem_append.mp hy with hy | hy
                · exact hqd2.1 y hy
                · rw [List.mem_singleton.mp hy]
                  exact hreach
              · intro y hy
                rcases List.mem_append.mp hy with hy | hy
                · exact hqd2.2 y hy
                · rw [List.mem_singleton.mp hy]
                  exact hreach
          have h0 : (∀ y ∈ rest, Alcanzable enlaces s y.1) ∧
              (∀ y ∈ dist, Alcanzable enlaces s y.1) :=
            ⟨fun y hy => hqueue y (List.mem_cons_of_mem _ hy), hdist⟩
          obtain ⟨hq2, hd2⟩ := hfold (rest, dist) h0
          exact ih _ _ hq2 hd2 x hx

theorem pyLookup_some_mem [BEq κ] [LawfulBEq κ] (d : List (κ × β)) (k : κ) (v : β)
    (h : pyLookup d k = some v) : (k, v) ∈ d := by
  induction d with
  | nil => simp [pyLookup] at h
  | cons kv rest ih =>
    by_cases h1 : (kv.1 == k) = true
    · simp only [pyLookup, if_pos h1, Option.some.injEq] at h
      have : kv.1 = k := by simpa using h1
      rw [← this, ← h]
      exact List.mem_cons_self _ _
    · simp only [pyLookup, if_neg h1] at h
      exact List.mem_cons_of_mem _ (ih h)

theorem mem_foldl_append_ite {α β : Type} (cond : α → Bool) (f : α → List β) :
    ∀ (l : List α) (init : List β) (p : β),
    (p ∈ l.foldl (fun acc x => if cond x then acc else acc ++ f x) init ↔
      p ∈ init ∨ ∃ x ∈ l, cond x = false ∧ p ∈ f x) := by
  intro l
  induction l with
  | nil => intro init p; simp
  | cons a rest ih =>
    intro init p
    rw [List.foldl_cons]
    by_cases hc : cond a
    · rw [if_pos hc, ih]
      constructor
      · rintro (h | ⟨x, hx, hcx, hp⟩)
        · exact Or.inl h
        · exact Or.inr ⟨x, List.mem_cons_of_mem _ hx, hcx, hp⟩
      · rintro (h | ⟨x, hx, hcx, hp⟩)
        · exact Or.inl h
        · rcases List.mem_cons.mp hx with rfl | hx2
          · rw [hc] at hcx; exact absurd hcx (by simp)
          · exact Or.inr ⟨x, hx2, hcx, hp⟩
    · rw [if_neg hc, ih]
      simp only [List.mem_append]
      constructor
      · rintro (⟨h | h⟩ | ⟨x, hx, hcx, hp⟩)
        · exact Or.inl h
        · exact Or.inr ⟨a, List.mem_cons_self _ _, by simpa using hc, h⟩
        · exact Or.inr ⟨x, List.mem_cons_of_mem _ hx, hcx, hp⟩
      · rintro (h | ⟨x, hx, hcx, hp⟩)
        · exact Or.inl (Or.inl h)
        · rcases List.mem_cons.mp hx with rfl | hx2
          · exact Or.inl (Or.inr hp)
          · exact Or.inr ⟨x, hx2, hcx, hp⟩

theorem dfsFat_spec (grafo : List (Int × List (Int × Enlace))) (target : Int)
    (enlaces : List Enlace) (source : Int)
    (hg : ∀ n vs, pyLookup grafo n = some vs →
      ∀ ve ∈ vs, ve.2 ∈ enlaces ∧ ve.2.source = n ∧ ve.2.target = ve.1)
    (hloop : ∀ e ∈ enlaces, e.source ≠ e.target) :
    ∀ (fuel : Nat) (nodo : Int) (camino : List Enlace),
    esCadena source camino nodo = true →
    (caminoNodos source camino).Nodup →
    ∀ p ∈ dfsFat grafo target fuel nodo camino,
      esCadena source p target = true ∧ (caminoNodos source p).Nodup ∧
      camino.length ≤ p.length ∧ (nodo ≠ target → camino.length < p.length) := by
  intro fuel
  induction fuel with
  | zero => intro nodo camino _ _ p hp; simp [dfsFat] at hp
  | succ fuel ih =>
    intro nodo camino hchain hnodup p hp
    unfold dfsFat at hp
    by_cases ht : (nodo == target) = true
    · rw [if_pos ht] at hp
      rcases List.mem_singleton.mp hp with rfl
      have : nodo = target := by simpa using ht
      exact ⟨this ▸ hchain, hnodup, le_refl _, fun hne => absurd this hne⟩
    · rw [if_neg ht] at hp
      cases hlk : pyLookup grafo nodo with
      | none => rw [hlk] at hp; simp at hp
      | some vecinos =>
        rw [hlk] at hp
        dsimp only at hp
        rw [mem_foldl_append_ite] at hp
        rcases hp with hp | ⟨ve, hve, hcond, hp⟩
        · simp at hp
        · obtain ⟨heE, hesrc, hetgt⟩ := hg nodo vecinos hlk ve hve
          have hnotsrc : ve.1 ∉ camino.map (fun e => e.source) := by
            simpa using hcond
          have hnodes : caminoNodos source camino =
              camino.map (fun e => e.source) ++ [nodo] := by
            unfold caminoNodos
            exact (esCadena_nodes camino source nodo hchain).symm
          have hnew_notmem : ve.2.target ∉ caminoNodos source camino := by
            rw [hnodes, hetgt]
            intro hmem
            rcases List.mem_append.mp hmem with hmem | hmem
            · exact hnotsrc hmem
            · rw [List.mem_singleton.mp hmem] at hetgt
              exact hloop ve.2 heE (hesrc.trans hetgt.symm)
          have hchain2 : esCadena source (camino ++ [ve.2]) ve.1 = true := by
            rw [← hetgt]
            exact esCadena_append ve.2 camino source nodo hchain hesrc
          have hnodup2 : (caminoNodos source (camino ++ [ve.2])).Nodup := by
            have heq : caminoNodos source (camino ++ [ve.2]) =
                caminoNodos source camino ++ [ve.2.target] := by
              simp [caminoNodos]
            rw [heq]
            rw [List.nodup_append]
            exact ⟨hnodup, List.nodup_singleton _,
              fun a ha hb => by
                rw [List.mem_singleton.mp hb] at ha
                exact hnew_notmem ha⟩
          obtain ⟨hc1, hc2, hc3, -⟩ := ih ve.1 (camino ++ [ve.2]) hchain2 hnodup2 p hp
          have hlt : camino.length < p.length := by
            rw [List.length_append, List.length_singleton] at hc3
            omega
          exact ⟨hc1, hc2, le_of_lt hlt, fun _ => hlt⟩

theorem dfsRing_spec (grafo : List (Int × List (Int × Enlace))) (target : Int)
    (enlaces : List Enlace) (source : Int) (maxLen : Nat)
    (hg : ∀ n vs, pyLookup grafo n = some vs →
      ∀ ve ∈ vs, ve.2 ∈ enlaces ∧ ve.2.source = n ∧ ve.2.target = ve.1) :
    ∀ (fuel : Nat) (nodo : Int) (camino : List Enlace) (visitados : List Int),
    esCadena source camino nodo = true →
    (caminoNodos source camino).Nodup →
    (∀ x ∈ caminoNodos source camino, x ∈ visitados) →
    ∀ p ∈ dfsRing grafo target maxLen fuel nodo camino visitados,
      esCadena source p target = true ∧ (caminoNodos source p).Nodup ∧
      camino.length ≤ p.length ∧ (nodo ≠ target → camino.length < p.length) := by
  intro fuel
  induction fuel with
  | zero => intro nodo camino visitados _ _ _ p hp; simp [dfsRing] at hp
  | succ fuel ih =>
    intro nodo camino visitados hchain hnodup hvis p hp
    unfold dfsRing at hp
    by_cases hcut : camino.length > maxLen
    · rw [if_pos hcut] at hp
      simp at hp
    · rw [if_neg hcut] at hp
      by_cases ht : (nodo == target) = true
      · rw [if_pos ht] at hp
        rcases List.mem_singleton.mp hp with rfl
        have : nodo = target := by simpa using ht
        exact ⟨this ▸ hchain, hnodup, le_refl _, fun hne => absurd this hne⟩
      · rw [if_neg ht] at hp
        cases hlk : pyLookup grafo nodo with
        | none => rw [hlk] at hp; simp at hp
        | some vecinos =>
          rw [hlk] at hp
          dsimp only at hp
          rw [mem_foldl_append_ite] at hp
          rcases hp with hp | ⟨ve, hve, hcond, hp⟩
          · simp at hp
          · obtain ⟨heE, hesrc, hetgt⟩ := hg nodo vecinos hlk ve hve
            have hnotvis : ve.1 ∉ visitados := by
              simpa using hcond
            have hnew_notmem : ve.2.target ∉ caminoNodos source camino := by
              rw [hetgt]
              intro hmem
              exact hnotvis (hvis ve.1 hmem)
            have hchain2 : esCadena source (camino ++ [ve.2]) ve.1 = true := by
              rw [← hetgt]
              exact esCadena_append ve.2 camino source nodo hchain hesrc
            have heq : caminoNodos source (camino ++ [ve.2]) =
                caminoNodos source camino ++ [ve.2.target] := by
              simp [caminoNodos]
            have hnodup2 : (caminoNodos source (camino ++ [ve.2])).Nodup := by
              rw [heq, List.nodup_append]
              exact ⟨hnodup, List.nodup_singleton _,
                fun a ha hb => by
                  rw [List.mem_singleton.mp hb] at ha
                  exact hnew_notmem ha⟩
            have hvis2 : ∀ x ∈ caminoNodos source (camino ++ [ve.2]),
                x ∈ visitados ++ [ve.1] := by
              intro x hx
              rw [heq] at hx
              rcases List.mem_append.mp hx with hx | hx
              · exact List.mem_append.mpr (Or.inl (hvis x hx))
              · rw [List.mem_singleton.mp hx, hetgt]
                exact List.mem_append.mpr (Or.inr (List.mem_singleton_self _))
            obtain ⟨hc1, hc2, hc3, -⟩ := ih ve.1 (camino ++ [ve.2]) (visitados ++ [ve.1])
              hchain2 hnodup2 hvis2 p hp
            have hlt : camino.length < p.length := by
              rw [List.length_append, List.length_singleton] at hc3
              omega
            exact ⟨hc1, hc2, le_of_lt hlt, fun _ => hlt⟩

theorem mem_insertarPorLongitud (p : List Enlace) :
    ∀ (l : List (List Enlace)) (q : List Enlace),
    q ∈ insertarPorLongitud p l ↔ q = p ∨ q ∈ l := by
  intro l
  induction l with
  | nil => intro q; simp [insertarPorLongitud]
  | cons r rest ih =>
    intro q
    unfold insertarPorLongitud
    by_cases hlen : r.length < p.length
    · rw [if_pos hlen, List.mem_cons, ih, List.mem_cons]
      tauto
    · rw [if_neg hlen]
      exact List.mem_cons

theorem mem_ordenarPorLongitud :
    ∀ (l : List (List Enlace)) (q : List Enlace),
    q ∈ ordenarPorLongitud l ↔ q ∈ l := by
  intro l
  induction l with
  | nil => intro q; simp [ordenarPorLongitud]
  | cons r rest ih =>
    intro q
    unfold ordenarPorLongitud
    rw [mem_insertarPorLongitud, ih, List.mem_cons]

theorem ordenado_insertar (p : List Enlace) :
    ∀ l : List (List Enlace), ordenadoAscendente l →
    ordenadoAscendente (insertarPorLongitud p l) := by
  intro l
  induction l with
  | nil => intro _; simp [insertarPorLongitud, ordenadoAscendente]
  | cons r rest ih =>
    intro h
    unfold ordenadoAscendente at h
    rw [List.pairwise_cons] at h
    unfold insertarPorLongitud
    by_cases hlen : r.length < p.length
    · rw [if_pos hlen]
      unfold ordenadoAscendente
      rw [List.pairwise_cons]
      constructor
      · intro q hq
        rcases (mem_insertarPorLongitud p rest q).mp hq with rfl | hq2
        · exact le_of_lt hlen
        · exact h.1 q hq2
      · exact ih h.2
    · rw [if_neg hlen]
      unfold ordenadoAscendente
      rw [List.pairwise_cons]
      constructor
      · intro q hq
        rcases List.mem_cons.mp hq with rfl | hq2
        · omega
        · exact le_trans (by omega) (h.1 q hq2)
      · rw [List.pairwise_cons]
        exact h
    -- both branches closed above

theorem ordenado_ordenar : ∀ l : List (List Enlace),
    ordenadoAscendente (ordenarPorLongitud l) := by
  intro l
  induction l with
  | nil => simp [ordenarPorLongitud, ordenadoAscendente]
  | cons r rest ih => exact ordenado_insertar r _ ih

theorem esSimple_of_cadena (s n : Int) (p : List Enlace)
    (hc : esCadena s p n = true) (hnd : (caminoNodos s p).Nodup) : esSimple p := by
  cases p with
  | nil => simp [esSimple, pathNodes]
  | cons e rest =>
    unfold esSimple pathNodes
    dsimp only
    simp only [esCadena, Bool.and_eq_true, beq_iff_eq] at hc
    have : e.source :: (e :: rest).map (fun l => l.target) = caminoNodos s (e :: rest) := by
      unfold caminoNodos
      rw [hc.1]
    rw [this]
    exact hnd

theorem encontrar_fat_props (source target : Int) (enlaces : List Enlace) (k : Nat)
    (hloop : ∀ e ∈ enlaces, e.source ≠ e.target) :
    propsDescubrimiento source target enlaces k
      (encontrar_k_paths_mas_cortos source target enlaces k) := by
  unfold propsDescubrimiento encontrar_k_paths_mas_cortos
  by_cases hst : (source == target) = true
  · rw [if_pos hst]
    have heq : source = target := by simpa using hst
    refine ⟨fun hne => absurd heq hne, ?_, ?_, ?_, ?_⟩
    · intro p hp
      rw [List.mem_singleton.mp hp]
      simp [esSimple, pathNodes]
    · simp [ordenadoAscendente]
    · simp [heq]
    · intro hunreach
      exact absurd (heq ▸ alcanzable_refl enlaces source) hunreach
  · rw [if_neg hst]
    have hne : source ≠ target := by simpa using hst
    dsimp only
    have hg := construir_sound enlaces
    have hsound := bfsAux_sound (construir_grafo_adyacencia enlaces) target enlaces source hg
      ((enlaces.length + 2) * (enlaces.length + 2)) [(source, 0)] [(source, 0)]
      (fun x hx => by
        rw [List.mem_singleton.mp hx]
        exact alcanzable_refl enlaces source)
      (fun x hx => by
        rw [List.mem_singleton.mp hx]
        exact alcanzable_refl enlaces source)
    cases hdist : pyLookup (bfsAux (construir_grafo_adyacencia enlaces) target
        ((enlaces.length + 2) * (enlaces.length + 2)) [(source, 0)] [(source, 0)]) target with
    | none =>
      refine ⟨fun _ => by simp, by simp, by simp [ordenadoAscendente], ?_, fun _ => rfl⟩
      simp [hne]
    | some dmin =>
      dsimp only
      have hreach : Alcanzable enlaces source target := by
        have hmem := pyLookup_some_mem _ _ _ hdist
        exact hsound (target, dmin) hmem
      have hchain0 : esCadena source ([] : List Enlace) source = true := by
        simp [esCadena]
      have hnodup0 : (caminoNodos source ([] : List Enlace)).Nodup := by
        simp [caminoNodos]
      have hspec := dfsFat_spec (construir_grafo_adyacencia enlaces) target enlaces source
        hg hloop (dmin + 2 + 1) source [] hchain0 hnodup0
      have hmem_todos : ∀ p, p ∈ (ordenarPorLongitud (dfsFat (construir_grafo_adyacencia enlaces)
          target (dmin + 2 + 1) source [])).take k →
          p ∈ dfsFat (construir_grafo_adyacencia enlaces) target (dmin + 2 + 1) source [] :=
        fun p hp => (mem_ordenarPorLongitud _ p).mp (List.mem_of_mem_take hp)
      refine ⟨fun _ => List.length_take_le _ _, ?_, ?_, ?_, ?_⟩
      · intro p hp
        obtain ⟨hc1, hc2, -, -⟩ := hspec p (hmem_todos p hp)
        exact esSimple_of_cadena source target p hc1 hc2
      · exact List.Pairwise.sublist (List.take_sublist _ _) (ordenado_ordenar _)
      · constructor
        · intro hr
          have hmem : ([] : List Enlace) ∈ (ordenarPorLongitud
              (dfsFat (construir_grafo_adyacencia enlaces) target
                (dmin + 2 + 1) source [])).take k := by
            rw [hr]
            exact List.mem_singleton_self _
          obtain ⟨-, -, -, hlt⟩ := hspec [] (hmem_todos [] hmem)
          exact absurd (hlt hne) (by simp)
        · intro h
          exact absurd h hne
      · intro hunreach
        exact absurd hreach hunreach

theorem encontrar_ring_props (source target : Int) (enlaces : List Enlace) (k : Nat)
    (maxl : Option Nat) :
    propsDescubrimiento source target enlaces k
      (encontrar_k_paths_bfs source target enlaces k maxl) := by
  unfold propsDescubrimiento encontrar_k_paths_bfs
  by_cases hst : (source == target) = true
  · rw [if_pos hst]
    have heq : source = target := by simpa using hst
    refine ⟨fun hne => absurd heq hne, ?_, ?_, ?_, ?_⟩
    · intro p hp
      rw [List.mem_singleton.mp hp]
      simp [esSimple, pathNodes]
    · simp [ordenadoAscendente]
    · simp [heq]
    · intro hunreach
      exact absurd (heq ▸ alcanzable_refl enlaces source) hunreach
  · rw [if_neg hst]
    have hne : source ≠ target := by simpa using hst
    dsimp only
    have hg := construir_sound enlaces
    have hsound := bfsAux_sound (construir_grafo_adyacencia enlaces) target enlaces source hg
      ((enlaces.length + 2) * (enlaces.length + 2)) [(source, 0)] [(source, 0)]
      (fun x hx => by
        rw [List.mem_singleton.mp hx]
        exact alcanzable_refl enlaces source)
      (fun x hx => by
        rw [List.mem_singleton.mp hx]
        exact alcanzable_refl enlaces source)
    cases hdist : pyLookup (bfsAux (construir_grafo_adyacencia enlaces) target
        ((enlaces.length + 2) * (enlaces.length + 2)) [(source, 0)] [(source, 0)]) target with
    | none =>
      refine ⟨fun _ => by simp, by simp, by simp [ordenadoAscendente], ?_, fun _ => rfl⟩
      simp [hne]
    | some dmin =>
      dsimp only
      have hreach : Alcanzable enlaces source target := by
        have hmem := pyLookup_some_mem _ _ _ hdist
        exact hsound (target, dmin) hmem
      have hchain0 : esCadena source ([] : List Enlace) source = true := by
        simp [esCadena]
      have hnodup0 : (caminoNodos source ([] : List Enlace)).Nodup := by
        simp [caminoNodos]
      have hvis0 : ∀ x ∈ caminoNodos source ([] : List Enlace), x ∈ [source] := by
        simp [caminoNodos]
      have hspec := dfsRing_spec (construir_grafo_adyacencia enlaces) target enlaces source
        (maxl.getD (dmin + 3)) hg (maxl.getD (dmin + 3) + 2) source [] [source]
        hchain0 hnodup0 hvis0
      have hmem_todos : ∀ p, p ∈ (ordenarPorLongitud (dfsRing (construir_grafo_adyacencia enlaces)
          target (maxl.getD (dmin + 3)) (maxl.getD (dmin + 3) + 2) source [] [source])).take k →
          p ∈ dfsRing (construir_grafo_adyacencia enlaces) target (maxl.getD (dmin + 3))
            (maxl.getD (dmin + 3) + 2) source [] [source] :=
        fun p hp => (mem_ordenarPorLongitud _ p).mp (List.mem_of_mem_take hp)
      refine ⟨fun _ => List.length_take_le _ _, ?_, ?_, ?_, ?_⟩
      · intro p hp
        obtain ⟨hc1, hc2, -, -⟩ := hspec p (hmem_todos p hp)
        exact esSimple_of_cadena source target p hc1 hc2
      · exact List.Pairwise.sublist (List.take_sublist _ _) (ordenado_ordenar _)
      · constructor
        · intro hr
          have hmem : ([] : List Enlace) ∈ (ordenarPorLongitud
              (dfsRing (construir_grafo_adyacencia enlaces) target (maxl.getD (dmin + 3))
                (maxl.getD (dmin + 3) + 2) source [] [source])).take k := by
            rw [hr]
            exact List.mem_singleton_self _
          obtain ⟨-, -, -, hlt⟩ := hspec [] (hmem_todos [] hmem)
          exact absurd (hlt hne) (by simp)
        · intro h
          exact absurd h hne
      · intro hunreach
        exact absurd hreach hunreach

/-- C2 (amended): with no self-loop links, both path-discovery variants
return at most `k` paths when `source ≠ target` (for `source == target`
they return `[[]]` — one path — regardless of `k`), every returned path
is simple, paths are sorted ascending by hop count, `[[]]` is returned
exactly when `source == target`, and `[]` is returned whenever the
target is unreachable from the source in the directed adjacency of the
link set.  (The ring variant's visited set makes its paths simple even
with self-loops; the fat-tree variant's cycle check does not, hence the
no-self-loop restriction.) -/
theorem claimC2 (source target : Int) (enlaces : List Enlace) (k : Nat) (maxl : Option Nat)
    (hloop : ∀ e ∈ enlaces, e.source ≠ e.target) :
    propsDescubrimiento source target enlaces k
      (encontrar_k_paths_mas_cortos source target enlaces k) ∧
    propsDescubrimiento source target enlaces k
      (encontrar_k_paths_bfs source target enlaces k maxl) :=
  ⟨encontrar_fat_props source target enlaces k hloop,
   encontrar_ring_props source target enlaces k maxl⟩

/-- C2, as frozen, is false on two counts, both exhibited here at
concrete inputs: (1) with a self-loop link the fat-tree variant returns
the path `1→1→2`, which repeats node 1 (not simple); (2) with
`source == target` and `k = 0` it returns `[[]]`, one path, exceeding
the requested count `k = 0`. -/
theorem claimC2_counterexample :
    (encontrar_k_paths_mas_cortos 1 2 [⟨1, 1, 1⟩, ⟨1, 2, 1⟩] 3 =
      [[⟨1, 2, 1⟩], [⟨1, 1, 1⟩, ⟨1, 2, 1⟩]] ∧
      ¬ esSimple [⟨1, 1, 1⟩, ⟨1, 2, 1⟩]) ∧
    (encontrar_k_paths_mas_cortos 3 3 [] 0 = [[]] ∧
      ¬ (encontrar_k_paths_mas_cortos 3 3 [] 0).length ≤ 0) := by
  refine ⟨⟨by rfl, ?_⟩, by rfl, by decide⟩
  unfold esSimple
  intro h
  have : pathNodes [(⟨1, 1, 1⟩ : Enlace), ⟨1, 2, 1⟩] = [1, 1, 2] := rfl
  rw [this] at h
  simp at h

theorem claimC2_witness :
    (∀ e ∈ [(⟨1, 2, 1⟩ : Enlace), ⟨2, 4, 1⟩, ⟨1, 3, 1⟩, ⟨3, 4, 1⟩, ⟨1, 4, 1⟩],
      e.source ≠ e.target) ∧
    (propsDescubrimiento 1 4 [⟨1, 2, 1⟩, ⟨2, 4, 1⟩, ⟨1, 3, 1⟩, ⟨3, 4, 1⟩, ⟨1, 4, 1⟩] 2
      (encontrar_k_paths_mas_cortos 1 4 [⟨1, 2, 1⟩, ⟨2, 4, 1⟩, ⟨1, 3, 1⟩, ⟨3, 4, 1⟩, ⟨1, 4, 1⟩] 2) ∧
    propsDescubrimiento 1 4 [⟨1, 2, 1⟩, ⟨2, 4, 1⟩, ⟨1, 3, 1⟩, ⟨3, 4, 1⟩, ⟨1, 4, 1⟩] 2
      (encontrar_k_paths_bfs 1 4 [⟨1, 2, 1⟩, ⟨2, 4, 1⟩, ⟨1, 3, 1⟩, ⟨3, 4, 1⟩, ⟨1, 4, 1⟩] 2 none)) :=
  ⟨by decide, claimC2 1 4 [⟨1, 2, 1⟩, ⟨2, 4, 1⟩, ⟨1, 3, 1⟩, ⟨3, 4, 1⟩, ⟨1, 4, 1⟩] 2 none
    (by decide)⟩

end MCF
